import Mathlib

/-!
# cadscan: a shallow embedding of the scanner, the drawing header reader and the directory tree

The development follows the Go sources:

* `drawing.go`   : `ReadDrawingVersion`, `DrawingVersion.Release`, `DrawingVersion.ReleaseName`
* `directory.go` : `Directory`, `Directory.scan`, `Directory.ChildCount`, `shouldExclude`
* `scanmodel.go` : `ScanModel.Clear`, `ScanModel.Append`
* `scanner.go`   : `NewScanner`, `Scanner.Scan`, `Scanner.Stop`, `Scanner.stop`, `Scanner.scan`

Go strings that hold raw file bytes (`DrawingVersion`) are lists of byte values; names and
paths are `String`.  Goroutines are embedded as a labelled step function on an explicit state:
each label is one atomic action of one goroutine and is enabled exactly when the Go statement
would not block.
-/

namespace Cadscan

/-! ## drawing.go -/

/-- The bytes of an ASCII literal, as Go stores a string. -/
def bytes (s : String) : List Nat := s.toList.map Char.toNat

/-- A Go `DrawingVersion`: a string, that is, a sequence of bytes. -/
abbrev DrawingVersion := List Nat

/-- The error values `ReadDrawingVersion` can return. -/
inductive Error where
  /-- The package variable `ErrInvalidDrawing`. -/
  | ErrInvalidDrawing
  /-- The value `io.EOF`. -/
  | EOF
  /-- Any other error reported by the operating system. -/
  | os (msg : String)
  deriving DecidableEq, Repr

/-- What `f.Read(header[:])` observes: the bytes the file yields (the call stores at most the
first six of them in `header`) and the error it reports. -/
structure ReadOutcome where
  data : List Nat
  err : Option Error
  deriving DecidableEq, Repr

/-- What `os.Open(name)` followed by the read observes for one file. -/
inductive OpenOutcome where
  /-- `os.Open` failed with `err`. -/
  | fail (err : Error)
  /-- `os.Open` succeeded and the read behaves as `r`. -/
  | opened (r : ReadOutcome)
  deriving DecidableEq, Repr

/-- The array `var header [6]byte` after the read: zero-initialised, with the bytes read copied
to its front. -/
def headerOf (r : ReadOutcome) : List Nat := (r.data ++ List.replicate 6 0).take 6

/-- The count `n` returned by `f.Read(header[:])`. -/
def readCount (r : ReadOutcome) : Nat := min r.data.length 6

/-- Embedding of `ReadDrawingVersion`: the returned pair `(DrawingVersion, error)`, with
`none` for a nil error. -/
def ReadDrawingVersion (o : OpenOutcome) : DrawingVersion × Option Error :=
  match o with
  | .fail err => ([], some err)
  | .opened r =>
    if r.err ≠ none ∧ r.err ≠ some Error.EOF then ([], r.err)
    else if readCount r < 6 then ([], some Error.ErrInvalidDrawing)
    else
      let h : Nat → Nat := fun i => (headerOf r).getD i 0
      if h 0 = 'A'.toNat ∧ h 1 = 'C'.toNat then
        if h 2 = '1'.toNat ∧ h 3 = '.'.toNat ∧ h 4 = '2'.toNat then (bytes "AC1.2", none)
        else if h 2 = '1'.toNat ∧ h 3 = '.'.toNat ∧ h 4 = '4'.toNat then (bytes "AC1.4", none)
        else (headerOf r, none)
      else if h 0 = 'M'.toNat ∧ h 1 = 'C'.toNat ∧ h 2 = '0'.toNat ∧ h 3 = '.'.toNat
          ∧ h 4 = '0'.toNat then (bytes "MC0.0", none)
      else ([], some Error.ErrInvalidDrawing)

/-- Embedding of `DrawingVersion.Release`. -/
def Release (v : DrawingVersion) : Nat :=
  if v = bytes "MC0.0" then 1
  else if v = bytes "AC1.2" then 2
  else if v = bytes "AC1.4" then 3
  else if v = bytes "AC1.50" then 4
  else if v = bytes "AC2.10" then 5
  else if v = bytes "AC1002" then 6
  else if v = bytes "AC1003" then 7
  else if v = bytes "AC1004" then 8
  else if v = bytes "AC1006" then 9
  else if v = bytes "AC1009" then 10
  else if v = bytes "AC1012" then 11
  else if v = bytes "AC1014" then 12
  else if v = bytes "AC1015" then 13
  else if v = bytes "AC1018" then 14
  else if v = bytes "AC1021" then 15
  else if v = bytes "AC1024" then 16
  else if v = bytes "AC1027" then 17
  else if v = bytes "AC1032" then 18
  else 0

/-- Embedding of `DrawingVersion.ReleaseName`. -/
def ReleaseName (v : DrawingVersion) : String :=
  if v = bytes "MC0.0" then "Release 1.1"
  else if v = bytes "AC1.2" then "Release 1.2"
  else if v = bytes "AC1.4" then "Release 1.4"
  else if v = bytes "AC1.50" then "Release 2.0"
  else if v = bytes "AC2.10" then "Release 2.10"
  else if v = bytes "AC1002" then "Release 2.5"
  else if v = bytes "AC1003" then "Release 2.6"
  else if v = bytes "AC1004" then "Release 9"
  else if v = bytes "AC1006" then "Release 10"
  else if v = bytes "AC1009" then "Release 11/12 (LT R1/R2)"
  else if v = bytes "AC1012" then "Release 13 (LT95)"
  else if v = bytes "AC1014" then "Release 14, 14.01 (LT97/LT98)"
  else if v = bytes "AC1015" then "AutoCAD 2000/2000i/2002"
  else if v = bytes "AC1018" then "AutoCAD 2004/2005/2006"
  else if v = bytes "AC1021" then "AutoCAD 2007/2008/2009"
  else if v = bytes "AC1024" then "AutoCAD 2010/2011/2012"
  else if v = bytes "AC1027" then "AutoCAD 2013/2014/2015/2016/2017"
  else if v = bytes "AC1032" then "AutoCAD 2018/2019/2020"
  else ""

/-- The versions `Release` ranks above zero (and `ReleaseName` names), in rank order. -/
def knownVersions : List DrawingVersion :=
  [bytes "MC0.0", bytes "AC1.2", bytes "AC1.4", bytes "AC1.50", bytes "AC2.10", bytes "AC1002",
   bytes "AC1003", bytes "AC1004", bytes "AC1006", bytes "AC1009", bytes "AC1012",
   bytes "AC1014", bytes "AC1015", bytes "AC1018", bytes "AC1021", bytes "AC1024",
   bytes "AC1027", bytes "AC1032"]

/-- A file's leading bytes match a known magic pattern when one of the known versions is a
prefix of them. -/
def matchesKnownMagic (d : List Nat) : Bool := knownVersions.any (fun m => m.isPrefixOf d)

/-- Modelled from the spec: the record `File` (its declaration is not among the sources); the
scanner builds it as `File{Path: path, Version: version}`. -/
structure File where
  Path : String
  Version : DrawingVersion
  deriving DecidableEq, Repr

/-- The body of a classification worker up to its send: `Some file` when
`ReadDrawingVersion` returned a nil error (the worker then sends `file` on its result
channel), `none` when it returned an error (the worker sends nothing). -/
def classify (path : String) (o : OpenOutcome) : Option File :=
  match ReadDrawingVersion o with
  | (version, none) => some { Path := path, Version := version }
  | (_, some _) => none

/-! ## directory.go -/

/-- Embedding of `shouldExclude`. -/
def shouldExclude (name : String) : Bool :=
  name = "System Volume Information" || name = "pagefile.sys" || name = "swapfile.sys"
    || name = "$RECYCLE.BIN"

/-- The part of `os.FileInfo` the program looks at: `Name()` and `IsDir()`. -/
structure FileInfo where
  Name : String
  IsDir : Bool
  deriving DecidableEq, Repr

/-- An open directory `f`: the entries it has not delivered yet, and the error `f.Readdir`
reports once none is left (`io.EOF` for a listing that is read without error). -/
structure DirStream where
  entries : List FileInfo
  err : Error
  deriving DecidableEq, Repr

/-- The call `f.Readdir(n)` for `n > 0`: at most `n` entries with a nil error, or no entry
and the stream's terminal error; returns the entries, the error and the advanced stream. -/
def Readdir (n : Nat) (f : DirStream) : List FileInfo × Option Error × DirStream :=
  if f.entries.take n = [] then ([], some f.err, f)
  else (f.entries.take n, none, { f with entries := f.entries.drop n })

/-- Embedding of the struct `Directory`.  Pointers `*Directory` are indices into a heap;
`ready` records whether the channel `ready` is closed and `once` whether `once.Do` has run. -/
structure Directory where
  name : String
  parent : Option Nat
  ready : Bool
  children : List Nat
  once : Bool
  deriving DecidableEq, Repr

/-- The store of allocated `Directory` values. -/
abbrev Heap := List Directory

/-- Embedding of `NewDirectory`: allocates the node and returns its pointer. -/
def NewDirectory (heap : Heap) (name : String) (parent : Option Nat) : Heap × Nat :=
  (heap ++ [{ name := name, parent := parent, ready := false, children := [], once := false }],
    heap.length)

/-- The inner loop of `Directory.scan` over one batch: `names = append(names, name)` for every
entry that is a directory and is not excluded. -/
def collectNames (files : List FileInfo) (names : List String) : List String :=
  files.foldl (fun acc info =>
    if !info.IsDir || shouldExclude info.Name then acc else acc ++ [info.Name]) names

/-- The outer `for` loop of `Directory.scan`: read batches of 512 until `Readdir` reports an
error.  `fuel` bounds the number of iterations. -/
def scanLoop : Nat → DirStream → List String → Option (List String)
  | 0, _, _ => none
  | fuel + 1, f, names =>
    match Readdir 512 f with
    | (files, err, f') =>
      let names' := collectNames files names
      if err ≠ none then some names' else scanLoop fuel f' names'

/-- The library call `sort.Strings`: the names in ascending order.  Strings are compared
lexicographically, character by character, which is the order `≤` of `String`. -/
def sortStrings (names : List String) : List String :=
  names.insertionSort (fun a b => a.toList ≤ b.toList)

/-- The statement `d.children = append(d.children, c)`. -/
def appendChild (heap : Heap) (d c : Nat) : Heap :=
  match heap[d]? with
  | none => heap
  | some dir => heap.set d { dir with children := dir.children ++ [c] }

/-- The deferred `close(d.ready)`. -/
def closeReady (heap : Heap) (d : Nat) : Heap :=
  match heap[d]? with
  | none => heap
  | some dir => heap.set d { dir with ready := true }

/-- The final loop of `Directory.scan`: one `NewDirectory(name, d)` per name, appended to
`d.children`. -/
def addChildren (heap : Heap) (d : Nat) (names : List String) : Heap :=
  names.foldl (fun h name =>
    match NewDirectory h name (some d) with
    | (h1, c) => appendChild h1 d c) heap

/-- Embedding of `Directory.scan` on the node at `d`; `o` is what `os.Open(d.Path())`
returns.  The result is `none` when `d` is not an allocated node. -/
def Directory.scan (heap : Heap) (d : Nat) (o : Except Error DirStream) : Option Heap :=
  match heap[d]? with
  | none => none
  | some _ =>
    match o with
    | .error _ => some (closeReady heap d)
    | .ok f =>
      match scanLoop (f.entries.length + 1) f [] with
      | none => none
      | some names => some (closeReady (addChildren heap d (sortStrings names)) d)

/-- The call `d.once.Do(d.scan)`. -/
def Directory.onceDoScan (heap : Heap) (d : Nat) (o : Except Error DirStream) : Option Heap :=
  match heap[d]? with
  | none => none
  | some dir =>
    if dir.once then some heap
    else
      match Directory.scan heap d o with
      | none => none
      | some h1 =>
        match h1[d]? with
        | none => none
        | some dir1 => some (h1.set d { dir1 with once := true })

/-- Embedding of `Directory.ChildCount`, run to its return: the scan is triggered, the receive
on `ready` succeeds once the channel is closed, and `len(d.children)` is returned. -/
def Directory.ChildCount (heap : Heap) (d : Nat) (o : Except Error DirStream) :
    Option (Heap × Nat) :=
  match Directory.onceDoScan heap d o with
  | none => none
  | some h1 =>
    match h1[d]? with
    | none => none
    | some dir => if dir.ready then some (h1, dir.children.length) else none

/-- The nodes the child pointers of `d` refer to. -/
def childrenOf (heap : Heap) (d : Nat) : List Directory :=
  match heap[d]? with
  | none => []
  | some dir => dir.children.filterMap (fun c => heap[c]?)

/-- The names of the entries of a listing that are directories and are not excluded. -/
def subdirNames (entries : List FileInfo) : List String :=
  (entries.filter (fun info => info.IsDir && !shouldExclude info.Name)).map (fun info => info.Name)

/-- The node `NewDirectory(name, d)` creates. -/
def freshChild (d : Nat) (name : String) : Directory :=
  { name := name, parent := some d, ready := false, children := [], once := false }

/-! ## scanner.go, phase 1: harvesting paths -/

/-- Embedding of `isDrawingFile`: the lower-cased name ends in `.dwg`. -/
def isDrawingFile (name : String) : Bool :=
  ".dwg".toList.isSuffixOf (name.toList.map Char.toLower)

/-- A file-system tree as `filepath.Walk` sees it. -/
inductive FsNode where
  /-- An entry that is not a directory. -/
  | file (name : String)
  /-- A directory; `readErr` tells whether listing it fails. -/
  | dir (name : String) (readErr : Bool) (entries : List FsNode)
  /-- An entry (or a root) for which `lstat` fails, a root path that does not exist
  included. -/
  | noStat (name : String)
  deriving Repr

/-- The non-nil errors the walk callback returns: `filepath.SkipDir` or `ctx.Err()`. -/
inductive WalkErr where
  | SkipDir
  | Canceled
  deriving DecidableEq, Repr

/-- The state the harvesting goroutine acts on: `budget` is the number of further callback
invocations that still find `ctx.Err() == nil`, and `queue` lists the paths sent on `queue`.
A path is the list of names from the scan root down to the entry, the arguments of the
`filepath.Join` calls that build the string; the scan root stands in it with its own name,
the part of `dir` above the root plays no role. -/
structure CrawlState where
  budget : Nat
  queue : List (List String)
  deriving DecidableEq, Repr

/-- The callback handed to `filepath.Walk` in `Scanner.scan`; `info` is `none` for a nil
`os.FileInfo` and `err` tells whether the error argument is non-nil. -/
def walkFn (s : CrawlState) (path : List String) (info : Option FileInfo) (err : Bool) :
    CrawlState × Option WalkErr :=
  if s.budget = 0 then (s, some WalkErr.Canceled)
  else
    let s1 := { s with budget := s.budget - 1 }
    match info with
    | none => (s1, some WalkErr.SkipDir)
    | some info =>
      if err then (s1, some WalkErr.SkipDir)
      else if info.IsDir then
        if shouldExclude info.Name then (s1, some WalkErr.SkipDir) else (s1, none)
      else if isDrawingFile info.Name then ({ s1 with queue := s1.queue ++ [path] }, none)
      else (s1, none)

/-- Whether the entry is a directory (`fileInfo.IsDir()`). -/
def FsNode.isDir : FsNode → Bool
  | .dir _ _ _ => true
  | _ => false

mutual
/-- The library function `walk` of `path/filepath`, together with the `lstat` of the entry:
the callback is invoked on the entry and, for a directory that could be listed and was not
skipped, the entries are walked. -/
def walkNode (s : CrawlState) (path : List String) : FsNode → CrawlState × Option WalkErr
  | .noStat name => walkFn s (path ++ [name]) none true
  | .file name => walkFn s (path ++ [name]) (some { Name := name, IsDir := false }) false
  | .dir name readErr entries =>
    match walkFn s (path ++ [name]) (some { Name := name, IsDir := true }) readErr with
    | (s1, err1) =>
      if readErr || err1.isSome then (s1, err1) else walkEntries s1 (path ++ [name]) entries
/-- The loop of `walk` over the names of a directory: `SkipDir` from a directory, or from the
callback on an entry without `lstat`, continues with the next name; any other error ends the
walk. -/
def walkEntries (s : CrawlState) (path : List String) : List FsNode → CrawlState × Option WalkErr
  | [] => (s, none)
  | e :: rest =>
    match walkNode s path e with
    | (s1, none) => walkEntries s1 path rest
    | (s1, some err) =>
      match e with
      | .noStat _ => if err ≠ WalkErr.SkipDir then (s1, some err) else walkEntries s1 path rest
      | _ =>
        if !e.isDir || err ≠ WalkErr.SkipDir then (s1, some err) else walkEntries s1 path rest
end

/-- The library function `filepath.Walk` applied to the scan root; its return value is
ignored by `Scanner.scan`. -/
def Walk (s : CrawlState) (root : FsNode) : CrawlState := (walkNode s [] root).1

/-- Phase 1 of `Scanner.scan`: the paths put on the queue, in order, when the context is
cancelled after `budget` callback invocations. -/
def crawl (budget : Nat) (root : FsNode) : List (List String) := (Walk ⟨budget, []⟩ root).queue

/-! ## scanmodel.go -/

/-- Embedding of `ScanModel.Clear` on the slice `m.files`. -/
def ScanModel.Clear (_files : List File) : List File := []

/-- Embedding of `ScanModel.Append` on the slice `m.files`: nothing happens for an empty
argument, otherwise the results are appended. -/
def ScanModel.Append (files : List File) (results : List File) : List File :=
  if results.length = 0 then files else files ++ results

/-! ## scanner.go: the scanner and the goroutines of a scan -/

/-- A path the harvesting phase sends on `queue`, together with what the worker that
classifies it observes when it opens and reads the file.  -/
structure Crawled where
  path : String
  file : OpenOutcome
  deriving DecidableEq, Repr

/-- Where a classification worker (the goroutine started for one path in phase 2) stands:
`reading` while `ReadDrawingVersion` runs, `sent` after the read returned and the `File`, if
any, was sent on `result`, `released` after `s.tokens <- token` and `exited` after the
deferred `close(result)`. -/
inductive WorkerPC where
  | reading
  | sent
  | released
  | exited
  deriving DecidableEq, Repr

/-- A channel `result := make(chan File, 1)` together with the worker that owns its sending
end: the path and file the worker was started on, the worker's position, the content of the
buffer and whether the channel is closed. -/
structure Slot where
  path : String
  file : OpenOutcome
  pc : WorkerPC
  buf : Option File
  closed : Bool
  deriving DecidableEq, Repr

/-- Position of the harvesting goroutine (phase 1): not yet spawned; between two sends, with
the paths the walk has yet to meet; blocked in `queue <- path`; returned, which closes
`queue`. -/
inductive CrawlerPC where
  | notStarted
  | walking (rest : List Crawled)
  | sending (p : Crawled) (rest : List Crawled)
  | done
  deriving DecidableEq, Repr

/-- Position of the dispatching goroutine (phase 2): not yet spawned; at `range queue`; at
the `select` with a path in hand; at `results <- result` with the channel just made; in the
drain loop after cancellation; returned, which closes `results`. -/
inductive DispatcherPC where
  | notStarted
  | receiving
  | selecting (p : Crawled)
  | sendingResult (slot : Nat)
  | draining
  | done
  deriving DecidableEq, Repr

/-- Position of the goroutine running `Scanner.scan` itself (phase 3): launched by `go` but
not yet run; at the `select` of the collect loop; at `<-result` inside its first case;
returned, which closes `done`. -/
inductive CollectorPC where
  | notStarted
  | selecting
  | waiting (slot : Nat)
  | done
  deriving DecidableEq, Repr

/-- The `Scanner` with everything it acts on.  `files` is `model.files`; `workers` and
`tokens` are the capacity and the length of the channel `s.tokens`; `cancel` and `stopped`
tell whether the fields `s.cancel` and `s.stopped` are non-nil.  The remaining fields are the
goroutines and channels of the most recent call of `Scan`: `input` is what the walk of its
directory meets, `cancelled` whether its context is cancelled, `queue` and `results` the
contents of the two channels (closed exactly when `crawler`, respectively `dispatcher`, is
`done`), `batch` the local slice of the collect loop (empty once `scan` has returned).
`slots` holds every result channel made so far; a channel is referred to by its index. -/
structure Scanner where
  files : List File
  workers : Nat
  tokens : Nat
  cancel : Bool
  stopped : Bool
  input : List Crawled
  cancelled : Bool
  crawler : CrawlerPC
  queue : List Crawled
  dispatcher : DispatcherPC
  results : List Nat
  collector : CollectorPC
  batch : List File
  slots : List Slot
  deriving DecidableEq, Repr

/-- Capacity of `queue := make(chan string, 128)`. -/
def queueCap : Nat := 128

/-- Capacity of `results := make(chan chan File, 128)`. -/
def resultsCap : Nat := 128

/-- Embedding of `NewScanner`: the pool is filled with `workers` tokens; no scan exists, so
no goroutine is live. -/
def NewScanner (files : List File) (workers : Nat) : Scanner :=
  { files := files, workers := workers, tokens := workers, cancel := false, stopped := false,
    input := [], cancelled := false, crawler := .done, queue := [], dispatcher := .done,
    results := [], collector := .done, batch := [], slots := [] }

/-- The atomic actions of the goroutines of a scan. -/
inductive Label where
  /-- `Scanner.scan` up to the collect loop: `init()`, `s.model.Clear()`, the two channels
  and the two `go` statements. -/
  | start
  /-- The walk reaches its next drawing file, or its end, or notices the cancellation. -/
  | crawlNext
  /-- The send `queue <- path` goes through. -/
  | crawlSend
  /-- The dispatcher receives from `queue`, or finds it closed and returns. -/
  | dispRecv
  /-- The `select` takes `case <-s.tokens`; the result channel is made and the worker
  started.  No statement between the receive and the `go` can block, and the token taken is
  the one the new worker gives back, so the three are one action. -/
  | dispAcquire
  /-- The `select` takes `case <-ctx.Done()`. -/
  | dispCancel
  /-- One iteration of the drain loop `for range queue`, or its end. -/
  | dispDrain
  /-- The send `results <- result` goes through. -/
  | dispSend
  /-- Worker `i`: `ReadDrawingVersion` returns and the `File`, if any, is sent. -/
  | workRead (i : Nat)
  /-- Worker `i`: `s.tokens <- token` goes through. -/
  | workRelease (i : Nat)
  /-- Worker `i`: the deferred `close(result)`. -/
  | workClose (i : Nat)
  /-- The collect loop takes `case result, ok := <-results`; on a closed channel it appends
  the batch and `scan` returns. -/
  | collRecv
  /-- The receive `<-result` inside that case goes through. -/
  | collRead
  /-- The collect loop takes `case <-t.C`. -/
  | collTick
  /-- The context of the scan is cancelled (the call `s.cancel()`). -/
  | cancelCtx
  deriving DecidableEq, Repr

/-- One atomic action; `none` when the goroutine is not at that statement or the statement
would block. -/
def step (l : Label) (s : Scanner) : Option Scanner :=
  match l with
  | .start =>
    match s.collector with
    | .notStarted => some { s with files := ScanModel.Clear s.files, crawler := .walking s.input,
                                   dispatcher := .receiving, collector := .selecting }
    | _ => none
  | .crawlNext =>
    match s.crawler with
    | .walking [] => some { s with crawler := .done }
    | .walking (p :: rest) =>
      if s.cancelled then some { s with crawler := .done }
      else some { s with crawler := .sending p rest }
    | _ => none
  | .crawlSend =>
    match s.crawler with
    | .sending p rest =>
      if s.queue.length < queueCap then
        some { s with queue := s.queue ++ [p], crawler := .walking rest }
      else none
    | _ => none
  | .dispRecv =>
    match s.dispatcher with
    | .receiving =>
      match s.queue with
      | p :: q => some { s with queue := q, dispatcher := .selecting p }
      | [] => if s.crawler = .done then some { s with dispatcher := .done } else none
    | _ => none
  | .dispAcquire =>
    match s.dispatcher with
    | .selecting p =>
      if 0 < s.tokens then
        some { s with tokens := s.tokens - 1,
                      slots := s.slots ++ [{ path := p.path, file := p.file, pc := .reading,
                                             buf := none, closed := false }],
                      dispatcher := .sendingResult s.slots.length }
      else none
    | _ => none
  | .dispCancel =>
    match s.dispatcher with
    | .selecting _ => if s.cancelled then some { s with dispatcher := .draining } else none
    | _ => none
  | .dispDrain =>
    match s.dispatcher with
    | .draining =>
      match s.queue with
      | _ :: q => some { s with queue := q }
      | [] => if s.crawler = .done then some { s with dispatcher := .done } else none
    | _ => none
  | .dispSend =>
    match s.dispatcher with
    | .sendingResult i =>
      if s.results.length < resultsCap then
        some { s with results := s.results ++ [i], dispatcher := .receiving }
      else none
    | _ => none
  | .workRead i =>
    match s.slots[i]? with
    | some sl =>
      if sl.pc = .reading then
        some { s with
          slots := s.slots.set i { sl with pc := .sent, buf := classify sl.path sl.file } }
      else none
    | none => none
  | .workRelease i =>
    match s.slots[i]? with
    | some sl =>
      if sl.pc = .sent ∧ s.tokens < s.workers then
        some { s with tokens := s.tokens + 1, slots := s.slots.set i { sl with pc := .released } }
      else none
    | none => none
  | .workClose i =>
    match s.slots[i]? with
    | some sl =>
      if sl.pc = .released then
        some { s with slots := s.slots.set i { sl with pc := .exited, closed := true } }
      else none
    | none => none
  | .collRecv =>
    match s.collector with
    | .selecting =>
      match s.results with
      | i :: r => some { s with results := r, collector := .waiting i }
      | [] =>
        if s.dispatcher = .done then
          some { s with files := ScanModel.Append s.files s.batch, batch := [],
                        collector := .done }
        else none
    | _ => none
  | .collRead =>
    match s.collector with
    | .waiting i =>
      match s.slots[i]? with
      | some sl =>
        match sl.buf with
        | some file =>
          some { s with batch := s.batch ++ [file], slots := s.slots.set i { sl with buf := none },
                        collector := .selecting }
        | none => if sl.closed then some { s with collector := .selecting } else none
      | none => none
    | _ => none
  | .collTick =>
    match s.collector with
    | .selecting => some { s with files := ScanModel.Append s.files s.batch, batch := [] }
    | _ => none
  | .cancelCtx => some { s with cancelled := true }

/-- A schedule: the actions taken one after the other; `none` when one of them is not
enabled. -/
def run : List Label → Scanner → Option Scanner
  | [], s => some s
  | l :: ls, s =>
    match step l s with
    | some s1 => run ls s1
    | none => none

/-- Embedding of `Scanner.stop`, with `sched` the actions the goroutines of the scan take
while the call waits in `<-s.stopped`: the result is `none` when the schedule is not
executable or does not bring the scan to its end (the call would still be waiting). -/
def Scanner.stop (sched : List Label) (s : Scanner) : Option (Bool × Scanner) :=
  if s.cancel = false then some (false, s)
  else if s.collector = .done then some (false, { s with cancel := false, stopped := false })
  else
    match run sched { s with cancelled := true } with
    | some s1 =>
      if s1.collector = .done then some (true, { s1 with cancel := false, stopped := false })
      else none
    | none => none

/-- Embedding of `Scanner.Stop`. -/
def Scanner.Stop (sched : List Label) (s : Scanner) : Option (Bool × Scanner) :=
  Scanner.stop sched s

/-- Embedding of `Scanner.Scan`: `input` is what the walk of `dir` meets and `sched` the
schedule for the wait inside `s.stop()`.  The new context is not cancelled and the goroutine
`go s.scan(...)` is launched but has not run yet. -/
def Scanner.Scan (input : List Crawled) (sched : List Label) (s : Scanner) : Option Scanner :=
  match Scanner.stop sched s with
  | some (_, s1) =>
    some { s1 with cancel := true, stopped := true, input := input, cancelled := false,
                   crawler := .notStarted, queue := [], dispatcher := .notStarted, results := [],
                   collector := .notStarted, batch := [] }
  | none => none

/-- The files a scan of `input` that classifies every path contributes, in crawl order. -/
def expected (input : List Crawled) : List File :=
  input.filterMap (fun p => classify p.path p.file)

/-- The calls a user of the scanner can make, next to the actions of the goroutines. -/
inductive Action where
  /-- One atomic action of a goroutine. -/
  | step (l : Label)
  /-- A call of `Scanner.Stop`, with the schedule of its wait. -/
  | Stop (sched : List Label)
  /-- A call of `Scanner.Scan`, with the input of the new scan and the schedule of the wait
  of its `s.stop()`. -/
  | Scan (input : List Crawled) (sched : List Label)
  deriving DecidableEq, Repr

/-- The effect of one action on the scanner; `none` when it is not executable. -/
def exec (a : Action) (s : Scanner) : Option Scanner :=
  match a with
  | .step l => step l s
  | .Stop sched => (Scanner.Stop sched s).map (fun r => r.2)
  | .Scan input sched => Scanner.Scan input sched s

/-- A history of the scanner: actions executed one after the other. -/
def execAll : List Action → Scanner → Option Scanner
  | [], s => some s
  | a :: as, s =>
    match exec a s with
    | some s1 => execAll as s1
    | none => none

/-- A worker holds a token from its start until `s.tokens <- token` goes through. -/
def Slot.holdsToken (sl : Slot) : Bool :=
  match sl.pc with
  | .reading => true
  | .sent => true
  | _ => false

/-- The number of workers that are started and have not yet returned their token. -/
def holders (slots : List Slot) : Nat := slots.countP Slot.holdsToken

/-- The number of workers inside `ReadDrawingVersion`. -/
def readers (slots : List Slot) : Nat := slots.countP (fun sl => sl.pc = .reading)

mutual
/-- The number of entries of a tree, which bounds the number of callback invocations of a
walk. -/
def FsNode.size : FsNode → Nat
  | .file _ => 1
  | .noStat _ => 1
  | .dir _ _ entries => 1 + FsNode.sizeList entries
/-- The number of entries of a list of trees. -/
def FsNode.sizeList : List FsNode → Nat
  | [] => 0
  | e :: rest => e.size + FsNode.sizeList rest
end

/-- The library function `filepath.Join` on the names from the scan root to an entry, for a
root name that is a clean path other than `.` with no separator at its end, and entry names as
`Readdir` reports them: on such names the `Clean` inside `filepath.Join` changes nothing and
the result is the names joined by the separator.  For another root (`.` for one, where the
library drops the leading `.\`) the library spells the path differently; which paths are
emitted does not depend on the spelling. -/
def Join (names : List String) : String := String.intercalate "\\" names

/-- The input of a scan of the tree `root`: the paths of a walk that is not cancelled, each
with what `world` lets a worker observe when it opens and reads the file. -/
def harvest (world : List String → OpenOutcome) (root : FsNode) : List Crawled :=
  (crawl root.size root).map (fun q => { path := Join q, file := world q })

/-- The token pool together with the workers that hold a token always adds up to the capacity
of the pool. -/
def TokInv (s : Scanner) : Prop := s.tokens + holders s.slots = s.workers

/-- The result channels the collect loop has yet to read, in the order it will read them:
the one it is blocked on, the content of `results`, the one the dispatcher is about to
send. -/
def pendingSlots (s : Scanner) : List Nat :=
  (match s.collector with
    | .waiting i => [i]
    | _ => [])
  ++ s.results ++
  (match s.dispatcher with
    | .sendingResult i => [i]
    | _ => [])

/-- The paths that left the walk and have no worker yet, in order: the one in the
dispatcher's hand, the content of `queue`, the one the walk is about to send. -/
def frontPaths (s : Scanner) : List Crawled :=
  (match s.dispatcher with
    | .selecting p => [p]
    | _ => [])
  ++ s.queue ++
  (match s.crawler with
    | .sending p _ => [p]
    | _ => [])

/-- The paths the walk has yet to meet. -/
def backPaths (s : Scanner) : List Crawled :=
  match s.crawler with
  | .notStarted => s.input
  | .walking rest => rest
  | .sending _ rest => rest
  | .done => []

/-- What the worker of result channel `i` delivers: the `File` for its path, or nothing. -/
def slotValue (slots : List Slot) (i : Nat) : Option File :=
  match slots[i]? with
  | some sl => classify sl.path sl.file
  | none => none

/-- A result channel agrees with its worker: empty while the worker reads, afterwards holding
what the worker had to send, and closed exactly when the worker has exited. -/
def SlotOk (sl : Slot) : Prop :=
  (sl.pc = .reading → sl.buf = none) ∧
  (sl.pc ≠ .reading → sl.buf = classify sl.path sl.file) ∧
  (sl.closed = true ↔ sl.pc = .exited)

/-- Every result channel yet to be read exists, is untouched by the collect loop, and occurs
once. -/
def PendingInv (s : Scanner) : Prop :=
  (pendingSlots s).Nodup ∧ ∀ i ∈ pendingSlots s, ∃ sl, s.slots[i]? = some sl ∧ SlotOk sl

/-- The positions of the goroutines of a scan fit together. -/
def ShapeInv (s : Scanner) : Prop :=
  (s.collector = .notStarted →
    s.crawler = .notStarted ∧ s.dispatcher = .notStarted ∧ s.queue = [] ∧ s.results = []
      ∧ s.batch = []) ∧
  (s.crawler = .notStarted → s.collector = .notStarted) ∧
  (s.dispatcher = .notStarted → s.collector = .notStarted) ∧
  (s.dispatcher = .draining → s.cancelled = true) ∧
  (s.dispatcher = .done → s.queue = [] ∧ s.crawler = .done) ∧
  (s.collector = .done → s.dispatcher = .done ∧ s.results = [] ∧ s.batch = [])

/-- What the scan has delivered or is bound to deliver: the sink, then the batch, then what
the pending result channels hold or will hold. -/
def delivered (s : Scanner) : List File :=
  s.files ++ s.batch ++ (pendingSlots s).filterMap (slotValue s.slots)

/-- The paths in flight are the next paths of the input after the first `m`, and without
cancellation the walk still holds all the others; nothing is said once the dispatcher has
been cancelled into its drain loop. -/
def FlightInv (m : Nat) (s : Scanner) : Prop :=
  (s.cancelled = true ∧ (s.dispatcher = .draining ∨ s.dispatcher = .done)) ∨
  ∃ tail, s.input.drop m = frontPaths s ++ tail ∧ (s.cancelled = false → tail = backPaths s)

/-- The order invariant of a scan whose first result channel is number `base`: what is
delivered or bound to be delivered are the files of the paths that got a worker, and these
paths are the first paths of the input. -/
def OrderInv (base : Nat) (s : Scanner) : Prop :=
  base ≤ s.slots.length ∧
  (s.collector = .notStarted → s.slots.length = base) ∧
  (s.collector ≠ .notStarted →
    delivered s = expected (s.input.take (s.slots.length - base)) ∧
    FlightInv (s.slots.length - base) s)

/-- The invariant of the goroutines of a scan whose first result channel is number `base`. -/
def RunInv (base : Nat) (s : Scanner) : Prop := ShapeInv s ∧ PendingInv s ∧ OrderInv base s

/-- No directory on the way down to the entry named last is excluded. -/
def cleanPath (path : List String) : Prop := ∀ n ∈ path.dropLast, shouldExclude n = false

/-- Sample paths: two drawings and a file that is too short. -/
def exA : Crawled := ⟨"C:\\a.dwg", .opened ⟨bytes "AC1015", none⟩⟩

def exB : Crawled := ⟨"C:\\b.dwg", .opened ⟨bytes "XX", none⟩⟩

def exC : Crawled := ⟨"C:\\c.dwg", .opened ⟨bytes "AC1032", none⟩⟩

/-- A scanner with one worker whose sink holds an old result. -/
def exIdle : Scanner := NewScanner [⟨"C:\\old.dwg", bytes "AC1009"⟩] 1

/-- The scanner right after `Scan` on the three sample paths. -/
def exStarted : Scanner := (Scanner.Scan [exA, exB, exC] [] exIdle).getD exIdle

/-- A complete schedule of that scan, with a tick in the middle; the worker of the third path
finishes before the collect loop has read the second. -/
def exTrace : List Label :=
  [.start, .crawlNext, .crawlSend, .crawlNext, .crawlSend, .dispRecv, .dispAcquire,
   .dispSend, .collRecv, .workRead 0, .collRead, .collTick, .workRelease 0, .dispRecv,
   .dispAcquire, .dispSend, .crawlNext, .crawlSend, .crawlNext, .dispRecv, .workRead 1,
   .workRelease 1, .dispAcquire, .workRead 2, .dispSend, .dispRecv, .collRecv, .workClose 1,
   .collRead, .collRecv, .collRead, .collRecv]

/-- The scanner at the end of that schedule. -/
def exFinished : Scanner := (run exTrace exStarted).getD exIdle

/-- A schedule that brings the scan to the point where the collect loop waits for the result
of the first path, which its worker has already sent; nothing has been flushed. -/
def exTraceWaiting : List Label :=
  [.start, .crawlNext, .crawlSend, .dispRecv, .dispAcquire, .dispSend, .workRead 0, .collRecv]

/-- The scanner at that point. -/
def exWaiting : Scanner := (run exTraceWaiting exStarted).getD exIdle

/-- The rest of the scan once it is cancelled there. -/
def exDrain : List Label := [.collRead, .crawlNext, .dispRecv, .collRecv]

/-- The scanner one step later: the file sits in the batch, still not flushed. -/
def exBatched : Scanner := (run [.collRead] exWaiting).getD exIdle

/-- The rest of the scan once it is cancelled there. -/
def exDrainBatched : List Label := [.crawlNext, .dispRecv, .collRecv]

/-- The fields `cancel` and `stopped` are set and reset together, and they are nil only when
no scan goroutine is live. -/
def ApiInv (s : Scanner) : Prop :=
  s.stopped = s.cancel ∧ (s.cancel = false → s.collector = .done)

/-- A scanner in the middle of a scan of the three sample paths that has flushed the file of
the first path to the sink. -/
def exActsA : List Action :=
  Action.Scan [exA, exB, exC] [] ::
    List.map Action.step (exTraceWaiting ++ [Label.collRead, Label.collTick])

/-- The scanner after those actions. -/
def exFlushedA : Scanner := (execAll exActsA exIdle).getD exIdle

/-- The scanner right after a second `Scan`, on the third sample path alone, which cancels
the first scan and waits for it. -/
def exRestarted : Scanner := (Scanner.Scan [exC] exDrainBatched exFlushedA).getD exIdle

/-- A complete schedule of the second scan; the worker left over from the first scan returns
its token in the middle of it. -/
def exTraceB : List Label :=
  [.start, .crawlNext, .crawlSend, .crawlNext, .dispRecv, .workRelease 0, .dispAcquire,
   .dispSend, .dispRecv, .collRecv, .workRead 1, .collRead, .collRecv]

/-- The scanner at the end of the second scan. -/
def exFinishedB : Scanner := (run exTraceB exRestarted).getD exIdle

/-- The scanner `Stop` leaves when it cancels the sample scan at the point where the collect
loop waits. -/
def exStopped : Scanner := ((Scanner.Stop exDrain exWaiting).map (fun r => r.2)).getD exIdle

/-- A sample tree: a drawing in the root, a drawing inside an excluded directory, an entry
that cannot be examined, a subdirectory with a drawing, and a directory that cannot be
listed. -/
def exTree : FsNode :=
  .dir "data" false [.file "a.DWG", .dir "$RECYCLE.BIN" false [.file "x.dwg"], .noStat "q.dwg",
    .dir "sub" false [.file "b.dwg", .file "c.txt"], .dir "bad" true [.file "y.dwg"]]

/-- The number of actions a worker still has to take. -/
def WorkerPC.left : WorkerPC → Nat
  | .reading => 3
  | .sent => 2
  | .released => 1
  | .exited => 0

/-- The actions all workers together still have to take. -/
def workLeft (slots : List Slot) : Nat := (slots.map (fun sl => sl.pc.left)).sum

/-- A bound on the number of actions, ticks and cancellation apart, the goroutines can still
take: every path in the walk, in `queue` or in the dispatcher's hand, every result channel in
`results` or in a goroutine's hand and every worker has a bounded way to go. -/
def measure (s : Scanner) : Nat :=
  (match s.collector with
    | .notStarted => 2
    | .selecting => 1
    | .waiting _ => 2
    | .done => 0)
  + (match s.crawler with
    | .notStarted => 1 + 10 * s.input.length
    | .walking rest => 1 + 10 * rest.length
    | .sending _ rest => 10 + 10 * rest.length
    | .done => 0)
  + 8 * s.queue.length
  + (match s.dispatcher with
    | .notStarted => 1
    | .receiving => 1
    | .selecting _ => 8
    | .sendingResult _ => 4
    | .draining => 1
    | .done => 0)
  + 2 * s.results.length
  + workLeft s.slots

/-- The first worker that holds a token, with the action it can take next. -/
def holderLabel : List Slot → Nat → Option Label
  | [], _ => none
  | sl :: rest, i =>
    match sl.pc with
    | .reading => some (.workRead i)
    | .sent => some (.workRelease i)
    | _ => holderLabel rest (i + 1)

/-- A scheduler: an action that is enabled as long as the scan has not ended.  It serves the
collect loop first, then the dispatcher, then the walk, and lets a worker run only when
another goroutine waits for it. -/
def nextLabel (s : Scanner) : Label :=
  match s.collector with
  | .notStarted => .start
  | .done => .collRecv
  | .waiting i =>
    match s.slots[i]? with
    | none => .collRead
    | some sl =>
      if sl.buf.isSome || sl.closed then .collRead
      else
        match sl.pc with
        | .reading => .workRead i
        | .sent => .workRelease i
        | _ => .workClose i
  | .selecting =>
    match s.results with
    | _ :: _ => .collRecv
    | [] =>
      match s.dispatcher with
      | .sendingResult _ => .dispSend
      | .selecting _ =>
        if s.cancelled then .dispCancel
        else if 0 < s.tokens then .dispAcquire
        else (holderLabel s.slots 0).getD .dispAcquire
      | .receiving =>
        match s.queue with
        | _ :: _ => .dispRecv
        | [] =>
          match s.crawler with
          | .walking _ => .crawlNext
          | .sending _ _ => .crawlSend
          | _ => .dispRecv
      | .draining =>
        match s.queue with
        | _ :: _ => .dispDrain
        | [] =>
          match s.crawler with
          | .walking _ => .crawlNext
          | .sending _ _ => .crawlSend
          | _ => .dispDrain
      | _ => .collRecv

/-- The schedule the scheduler produces in at most `fuel` actions. -/
def schedule : Nat → Scanner → List Label
  | 0, _ => []
  | fuel + 1, s =>
    if s.collector = .done then []
    else
      match step (nextLabel s) s with
      | some s1 => nextLabel s :: schedule fuel s1
      | none => []

/-- What the scheduler relies on: the token count, the shape of the goroutines and the state
of the pending result channels. -/
def LiveInv (s : Scanner) : Prop := TokInv s ∧ ShapeInv s ∧ PendingInv s

/-- A walk with the smaller budget against the same walk with the larger one: the smaller
has queued a prefix of what the larger has, and unless it was cancelled the two agree. -/
def WalkSim (r r1 : CrawlState × Option WalkErr) : Prop :=
  r.1.queue <+: r1.1.queue ∧
  (r.2 = some WalkErr.Canceled ∨
    (r.2 = r1.2 ∧ r.1.queue = r1.1.queue ∧ r.1.budget ≤ r1.1.budget))

/-- A result channel is unresolved while a receive on it would block: its buffer is empty and
it is not closed. -/
def Slot.unresolved (sl : Slot) : Bool := sl.buf.isNone && !sl.closed

/-- The number of result channels in `results` that are unresolved. -/
def enqueuedUnresolved (s : Scanner) : Nat :=
  (s.results.filter (fun i => (s.slots[i]?).any Slot.unresolved)).length

/-- The number of result channels in `results` whose worker holds a token. -/
def enqueuedHolding (s : Scanner) : Nat :=
  (s.results.filter (fun i => (s.slots[i]?).any Slot.holdsToken)).length

/-- A history with one worker: the classification of the first path fails and its worker
returns the token without having closed its channel yet, the second path gets the token, and
the dispatcher takes the third path from `queue`. -/
def exActsPermit : List Action :=
  Action.Scan [exB, exA, exC] [] ::
    List.map Action.step
      [Label.start, Label.crawlNext, Label.crawlSend, Label.dispRecv, Label.dispAcquire,
       Label.dispSend, Label.workRead 0, Label.workRelease 0, Label.crawlNext, Label.crawlSend,
       Label.dispRecv, Label.dispAcquire, Label.dispSend, Label.crawlNext, Label.crawlSend,
       Label.dispRecv]

/-- The scanner after that history: the dispatcher waits for a token. -/
def exWaitingPermit : Scanner := (execAll exActsPermit (NewScanner [] 1)).getD exIdle

/-! # Theorems -/

/-! ## drawing.go -/

theorem bytes_AC : bytes "AC" = [65, 67] := by decide

theorem bytes_MC00 : bytes "MC0.0" = [77, 67, 48, 46, 48] := by decide

/-- `Release` is non-zero exactly on the listed versions. -/
theorem Release_ne_zero_iff (v : DrawingVersion) : Release v ≠ 0 ↔ v ∈ knownVersions := by
  unfold Release knownVersions
  constructor
  · intro h
    simp only [List.mem_cons, List.mem_singleton]
    by_contra hne
    simp only [not_or] at hne
    simp [hne] at h
  · intro h
    simp only [List.mem_cons, List.mem_singleton, List.not_mem_nil, or_false] at h
    rcases h with h | h | h | h | h | h | h | h | h | h | h | h | h | h | h | h | h | h <;>
      subst h <;> decide

/-- The branch of `ReadDrawingVersion` for a file that was opened. -/
theorem ReadDrawingVersion_opened (r : ReadOutcome) :
    ReadDrawingVersion (.opened r) =
      if r.err ≠ none ∧ r.err ≠ some Error.EOF then ([], r.err)
      else if readCount r < 6 then ([], some Error.ErrInvalidDrawing)
      else
        if (headerOf r).getD 0 0 = 65 ∧ (headerOf r).getD 1 0 = 67 then
          if (headerOf r).getD 2 0 = 49 ∧ (headerOf r).getD 3 0 = 46 ∧ (headerOf r).getD 4 0 = 50
          then (bytes "AC1.2", none)
          else if (headerOf r).getD 2 0 = 49 ∧ (headerOf r).getD 3 0 = 46
              ∧ (headerOf r).getD 4 0 = 52 then (bytes "AC1.4", none)
          else (headerOf r, none)
        else if (headerOf r).getD 0 0 = 77 ∧ (headerOf r).getD 1 0 = 67
            ∧ (headerOf r).getD 2 0 = 48 ∧ (headerOf r).getD 3 0 = 46
            ∧ (headerOf r).getD 4 0 = 48 then (bytes "MC0.0", none)
        else ([], some Error.ErrInvalidDrawing) := rfl

/-- The worker sends nothing exactly when `ReadDrawingVersion` returns an error. -/
theorem classify_eq_none_iff (path : String) (o : OpenOutcome) :
    classify path o = none ↔ (ReadDrawingVersion o).2 ≠ none := by
  unfold classify
  rcases h : ReadDrawingVersion o with ⟨v, _ | e⟩ <;> simp

/-- C6. A file that yields fewer than six bytes: when the read reports no error, or only
`io.EOF`, `ReadDrawingVersion` returns the empty version with `ErrInvalidDrawing`, whatever
the bytes are; and in every case the worker sends no `File` for it. -/
theorem ReadDrawingVersion_short (r : ReadOutcome) (hlen : r.data.length < 6) :
    (r.err = none ∨ r.err = some Error.EOF →
      ReadDrawingVersion (.opened r) = ([], some Error.ErrInvalidDrawing)) ∧
    ∀ path, classify path (.opened r) = none := by
  have hn : readCount r < 6 := by unfold readCount; omega
  constructor
  · intro herr
    rw [ReadDrawingVersion_opened]
    rcases herr with h | h <;> simp [h, hn]
  · intro path
    rw [classify_eq_none_iff, ReadDrawingVersion_opened]
    by_cases h : r.err ≠ none ∧ r.err ≠ some Error.EOF
    · rw [if_pos h]; exact h.1
    · simp [h, hn]

theorem ReadDrawingVersion_short_witness :
    ((none : Option Error) = none ∨ (none : Option Error) = some Error.EOF →
      ReadDrawingVersion (.opened ⟨bytes "AC1.2", none⟩) = ([], some Error.ErrInvalidDrawing)) ∧
    ∀ path, classify path (.opened ⟨bytes "AC1.2", none⟩) = none :=
  ReadDrawingVersion_short ⟨bytes "AC1.2", none⟩ (by decide)

/-- C5, as stated, fails: the six bytes `ACXXXX` match none of the known versions, yet
`ReadDrawingVersion` returns them as a version with a nil error, the worker sends a `File`,
and that version has rank 0 and an empty name. -/
theorem ReadDrawingVersion_unknown_AC_accepted :
    matchesKnownMagic (bytes "ACXXXX") = false ∧
    ReadDrawingVersion (.opened ⟨bytes "ACXXXX", none⟩) = (bytes "ACXXXX", none) ∧
    classify "a.dwg" (.opened ⟨bytes "ACXXXX", none⟩)
      = some { Path := "a.dwg", Version := bytes "ACXXXX" } ∧
    Release (bytes "ACXXXX") = 0 ∧ ReleaseName (bytes "ACXXXX") = "" := by
  decide

theorem knownVersions_eq :
    knownVersions =
    [[77, 67, 48, 46, 48],
     [65, 67, 49, 46, 50],
     [65, 67, 49, 46, 52],
     [65, 67, 49, 46, 53, 48],
     [65, 67, 50, 46, 49, 48],
     [65, 67, 49, 48, 48, 50],
     [65, 67, 49, 48, 48, 51],
     [65, 67, 49, 48, 48, 52],
     [65, 67, 49, 48, 48, 54],
     [65, 67, 49, 48, 48, 57],
     [65, 67, 49, 48, 49, 50],
     [65, 67, 49, 48, 49, 52],
     [65, 67, 49, 48, 49, 53],
     [65, 67, 49, 48, 49, 56],
     [65, 67, 49, 48, 50, 49],
     [65, 67, 49, 48, 50, 52],
     [65, 67, 49, 48, 50, 55],
     [65, 67, 49, 48, 51, 50]] := by
  decide

/-- `ReleaseName` is empty exactly off the listed versions. -/
theorem ReleaseName_eq_empty_iff (v : DrawingVersion) :
    ReleaseName v = "" ↔ v ∉ knownVersions := by
  unfold ReleaseName knownVersions
  constructor
  · intro h hmem
    simp only [List.mem_cons, List.mem_singleton, List.not_mem_nil, or_false] at hmem
    rcases hmem with h1 | h1 | h1 | h1 | h1 | h1 | h1 | h1 | h1 | h1 | h1 | h1 | h1 | h1 | h1 |
      h1 | h1 | h1 <;> subst h1 <;> revert h <;> decide
  · intro h
    simp only [List.mem_cons, List.mem_singleton, List.not_mem_nil, or_false, not_or] at h
    simp [h]

theorem bytes_AC12 : bytes "AC1.2" = [65, 67, 49, 46, 50] := by decide

theorem bytes_AC14 : bytes "AC1.4" = [65, 67, 49, 46, 52] := by decide

/-- `ReadDrawingVersion` on a file that yields at least six bytes without a read error. -/
theorem ReadDrawingVersion_six (a b c d e f : Nat) (rest : List Nat) (err : Option Error)
    (herr : err = none ∨ err = some Error.EOF) :
    ReadDrawingVersion (.opened ⟨a :: b :: c :: d :: e :: f :: rest, err⟩) =
      if a = 65 ∧ b = 67 then
        if c = 49 ∧ d = 46 ∧ e = 50 then ([65, 67, 49, 46, 50], none)
        else if c = 49 ∧ d = 46 ∧ e = 52 then ([65, 67, 49, 46, 52], none)
        else ([a, b, c, d, e, f], none)
      else if a = 77 ∧ b = 67 ∧ c = 48 ∧ d = 46 ∧ e = 48 then ([77, 67, 48, 46, 48], none)
      else ([], some Error.ErrInvalidDrawing) := by
  have hE : ¬ (err ≠ none ∧ err ≠ some Error.EOF) := by
    rcases herr with h | h <;> simp [h]
  have hlen : ¬ (rest.length + 1 + 1 + 1 + 1 + 1 + 1 < 6) := by omega
  rw [ReadDrawingVersion_opened]
  simp only [if_neg hE, readCount, headerOf, List.length_cons, bytes_AC12, bytes_AC14,
    bytes_MC00]
  rw [if_neg (by omega)]
  simp

/-- `ReadDrawingVersion` on a file that yields fewer than six bytes without a read error. -/
theorem ReadDrawingVersion_few (r : ReadOutcome)
    (herr : r.err = none ∨ r.err = some Error.EOF) (hlen : r.data.length < 6) :
    ReadDrawingVersion (.opened r) = ([], some Error.ErrInvalidDrawing) := by
  have hn : readCount r < 6 := by unfold readCount; omega
  rw [ReadDrawingVersion_opened]
  rcases herr with h | h <;> simp [h, hn]

/-- The worker sends the returned version when `ReadDrawingVersion` returns a nil error. -/
theorem classify_of_nil (path : String) (o : OpenOutcome) (h : (ReadDrawingVersion o).2 = none) :
    classify path o = some { Path := path, Version := (ReadDrawingVersion o).1 } := by
  unfold classify
  rcases hr : ReadDrawingVersion o with ⟨v, _ | e⟩
  · rfl
  · rw [hr] at h; cases h

/-- Whether one of the listed versions is a prefix of six bytes. -/
theorem matchesKnownMagic_six (a b c d e f : Nat) :
    matchesKnownMagic [a, b, c, d, e, f] = true ↔
      ((a = 77 ∧ b = 67 ∧ c = 48 ∧ d = 46 ∧ e = 48) ∨
       (a = 65 ∧ b = 67 ∧ c = 49 ∧ d = 46 ∧ e = 50) ∨
       (a = 65 ∧ b = 67 ∧ c = 49 ∧ d = 46 ∧ e = 52) ∨
       [a, b, c, d, e, f] ∈ knownVersions) := by
  unfold matchesKnownMagic
  rw [knownVersions_eq]
  simp [List.isPrefixOf, @eq_comm Nat 77, @eq_comm Nat 67, @eq_comm Nat 48, @eq_comm Nat 46,
    @eq_comm Nat 65, @eq_comm Nat 49, @eq_comm Nat 50, @eq_comm Nat 52, @eq_comm Nat 53, @eq_comm
    Nat 51, @eq_comm Nat 54, @eq_comm Nat 57, @eq_comm Nat 56, @eq_comm Nat 55]

/-- For six bytes that `ReadDrawingVersion` accepts, the returned version is a listed one
exactly when a listed version is a prefix of the six bytes. -/
theorem accepted_known_iff (a b c d e f : Nat) (rest : List Nat) (err : Option Error)
    (herr : err = none ∨ err = some Error.EOF)
    (hacc : (ReadDrawingVersion (.opened ⟨a :: b :: c :: d :: e :: f :: rest, err⟩)).2 = none) :
    (ReadDrawingVersion (.opened ⟨a :: b :: c :: d :: e :: f :: rest, err⟩)).1 ∈ knownVersions ↔
      matchesKnownMagic [a, b, c, d, e, f] = true := by
  rw [ReadDrawingVersion_six a b c d e f rest err herr] at hacc ⊢
  rw [matchesKnownMagic_six]
  split_ifs at hacc ⊢ with h1 h2 h3 h4
  · simp [h1, h2, knownVersions_eq]
  · simp [h1, h3, knownVersions_eq]
  · constructor
    · intro h
      exact Or.inr (Or.inr (Or.inr h))
    · rintro (⟨h, _⟩ | ⟨_, _, hc, hd, he⟩ | ⟨_, _, hc, hd, he⟩ | h)
      · have := h1.1
        omega
      · exact absurd ⟨hc, hd, he⟩ h2
      · exact absurd ⟨hc, hd, he⟩ h3
      · exact h
  · simp [h4, knownVersions_eq]

/-- C5, amended. For a file read without an error other than `io.EOF`,
`ReadDrawingVersion` returns `ErrInvalidDrawing` exactly when fewer than six bytes are read or
the bytes start neither with `AC` nor with `MC0.0`; the version is then empty, the worker sends
no `File`, and a scan contributes nothing for that path.  In every other case the error is
nil: six bytes that start with `AC` give `AC1.2`, `AC1.4` or, by the default branch, the six
bytes themselves, and bytes that start with `MC0.0` give `MC0.0`.  For an accepted file the
worker sends a `File` with the returned version, and that version has rank 0, and an empty
name, exactly when none of the listed versions is a prefix of the first six bytes. -/
theorem ReadDrawingVersion_invalid_iff (r : ReadOutcome)
    (herr : r.err = none ∨ r.err = some Error.EOF) :
    ((ReadDrawingVersion (.opened r)).2 = some Error.ErrInvalidDrawing ↔
      (r.data.length < 6 ∨
        ((bytes "AC").isPrefixOf r.data = false ∧ (bytes "MC0.0").isPrefixOf r.data = false))) ∧
    ((ReadDrawingVersion (.opened r)).2 = some Error.ErrInvalidDrawing →
      (ReadDrawingVersion (.opened r)).1 = [] ∧
      (∀ path, classify path (.opened r) = none) ∧
      ∀ pre post path,
        expected (pre ++ ⟨path, .opened r⟩ :: post) = expected (pre ++ post)) ∧
    ((ReadDrawingVersion (.opened r)).2 ≠ some Error.ErrInvalidDrawing →
      (ReadDrawingVersion (.opened r)).2 = none) ∧
    (6 ≤ r.data.length → (bytes "AC").isPrefixOf r.data = true →
      ReadDrawingVersion (.opened r) =
        (if (bytes "AC1.2").isPrefixOf r.data = true then bytes "AC1.2"
         else if (bytes "AC1.4").isPrefixOf r.data = true then bytes "AC1.4"
         else r.data.take 6, none)) ∧
    (6 ≤ r.data.length → (bytes "MC0.0").isPrefixOf r.data = true →
      ReadDrawingVersion (.opened r) = (bytes "MC0.0", none)) ∧
    ((ReadDrawingVersion (.opened r)).2 = none →
      (∀ path, classify path (.opened r) =
        some { Path := path, Version := (ReadDrawingVersion (.opened r)).1 }) ∧
      (Release (ReadDrawingVersion (.opened r)).1 = 0 ↔
        matchesKnownMagic (r.data.take 6) = false) ∧
      (ReleaseName (ReadDrawingVersion (.opened r)).1 = "" ↔
        matchesKnownMagic (r.data.take 6) = false)) := by
  rcases r with ⟨data, err⟩
  simp only at herr
  by_cases hlen : data.length < 6
  · have hfew := ReadDrawingVersion_few ⟨data, err⟩ herr hlen
    refine ⟨?_, ?_, ?_, ?_, ?_, ?_⟩
    · simp [hfew, hlen]
    · intro h
      have hcl : ∀ path, classify path (.opened ⟨data, err⟩) = none := by
        intro path
        rw [classify_eq_none_iff, h]; simp
      refine ⟨by rw [hfew], hcl, fun pre post path => ?_⟩
      simp [expected, List.filterMap_append, List.filterMap_cons, hcl]
    · intro h; rw [hfew] at h; exact absurd rfl h
    · intro h; simp only at h; omega
    · intro h; simp only at h; omega
    · intro h; rw [hfew] at h; cases h
  · obtain ⟨a, b, c, d, e, f, rest, rfl⟩ :
        ∃ a b c d e f rest, data = a :: b :: c :: d :: e :: f :: rest := by
      rcases data with _ | ⟨a, _ | ⟨b, _ | ⟨c, _ | ⟨d, _ | ⟨e, _ | ⟨f, rest⟩⟩⟩⟩⟩⟩ <;>
        first
        | (exfalso; apply hlen; simp; done)
        | exact ⟨_, _, _, _, _, _, _, rfl⟩
    have hsix := ReadDrawingVersion_six a b c d e f rest err herr
    have hknown := accepted_known_iff a b c d e f rest err herr
    refine ⟨?_, ?_, ?_, ?_, ?_, ?_⟩
    · rw [hsix, bytes_AC, bytes_MC00]
      simp only [List.isPrefixOf, List.length_cons, Bool.and_true, Bool.and_eq_false_imp,
        beq_iff_eq, beq_eq_false_iff_ne, ne_eq]
      constructor
      · intro h
        right
        split_ifs at h with h1 h2 h3 h4
        exact ⟨fun ha hb => h1 ⟨ha.symm, hb.symm⟩,
          fun ha hb hc hd he => h4 ⟨ha.symm, hb.symm, hc.symm, hd.symm, he.symm⟩⟩
      · rintro (h | ⟨h1, h2⟩)
        · omega
        · rw [if_neg (fun h => h1 h.1.symm h.2.symm),
            if_neg (fun h => h2 h.1.symm h.2.1.symm h.2.2.1.symm h.2.2.2.1.symm h.2.2.2.2.symm)]
    · intro h
      have hcl : ∀ path,
          classify path (.opened ⟨a :: b :: c :: d :: e :: f :: rest, err⟩) = none := by
        intro path
        rw [classify_eq_none_iff, h]; simp
      refine ⟨?_, hcl, fun pre post path => ?_⟩
      · rw [hsix] at h ⊢
        split_ifs at h ⊢
        rfl
      · simp [expected, List.filterMap_append, List.filterMap_cons, hcl]
    · rw [hsix]
      intro h
      split_ifs at h ⊢ <;> simp_all
    · intro _ hp
      rw [hsix, bytes_AC12, bytes_AC14]
      rw [bytes_AC] at hp
      simp only [List.isPrefixOf, Bool.and_true, Bool.and_eq_true, beq_iff_eq] at hp ⊢
      obtain ⟨rfl, rfl⟩ := hp
      simp only [and_self, if_true, true_and, @eq_comm Nat 49, @eq_comm Nat 46,
        @eq_comm Nat 50, @eq_comm Nat 52]
      split_ifs <;> rfl
    · intro _ hp
      rw [hsix, bytes_MC00]
      rw [bytes_MC00] at hp
      simp only [List.isPrefixOf, Bool.and_true, Bool.and_eq_true, beq_iff_eq] at hp
      obtain ⟨rfl, rfl, rfl, rfl, rfl⟩ := hp
      simp
    · intro hacc
      refine ⟨fun path => classify_of_nil path _ hacc, ?_, ?_⟩
      · have hR := Release_ne_zero_iff
          (ReadDrawingVersion (.opened ⟨a :: b :: c :: d :: e :: f :: rest, err⟩)).1
        have hk := hknown hacc
        change _ ↔ matchesKnownMagic [a, b, c, d, e, f] = false
        rw [← Bool.not_eq_true, ← hk, ← hR, not_not]
      · have hk := hknown hacc
        change _ ↔ matchesKnownMagic [a, b, c, d, e, f] = false
        rw [← Bool.not_eq_true, ← hk]
        exact ReleaseName_eq_empty_iff _

theorem ReadDrawingVersion_invalid_iff_witness :
    ((none : Option Error) = none ∨ (none : Option Error) = some Error.EOF) ∧
    ReadDrawingVersion (.opened ⟨bytes "AC1099", none⟩) = (bytes "AC1099", none) ∧
    Release (bytes "AC1099") = 0 ∧ ReleaseName (bytes "AC1099") = "" ∧
    classify "a.dwg" (.opened ⟨bytes "XC1015", none⟩) = none :=
  ⟨Or.inl rfl,
   (ReadDrawingVersion_invalid_iff ⟨bytes "AC1099", none⟩ (Or.inl rfl)).2.2.2.1 (by decide) (by decide),
   ((ReadDrawingVersion_invalid_iff ⟨bytes "AC1099", none⟩ (Or.inl rfl)).2.2.2.2.2 (by decide)).2.1.mpr (by decide),
   ((ReadDrawingVersion_invalid_iff ⟨bytes "AC1099", none⟩ (Or.inl rfl)).2.2.2.2.2 (by decide)).2.2.mpr (by decide),
   ((ReadDrawingVersion_invalid_iff ⟨bytes "XC1015", none⟩ (Or.inl rfl)).2.1
      ((ReadDrawingVersion_invalid_iff ⟨bytes "XC1015", none⟩ (Or.inl rfl)).1.mpr (by decide))).2.1 "a.dwg"⟩

/-! ## directory.go -/

theorem collectNames_eq (files : List FileInfo) (names : List String) :
    collectNames files names = names ++ subdirNames files := by
  unfold collectNames subdirNames
  induction files generalizing names with
  | nil => simp
  | cons info rest ih =>
    rw [List.foldl_cons, ih]
    cases hD : info.IsDir <;> cases hE : shouldExclude info.Name <;> simp [List.filter_cons, hD, hE]

theorem subdirNames_append (xs ys : List FileInfo) :
    subdirNames (xs ++ ys) = subdirNames xs ++ subdirNames ys := by
  simp [subdirNames]

/-- The read loop delivers the whole listing once the fuel exceeds the number of entries. -/
theorem scanLoop_eq (fuel : Nat) (f : DirStream) (names : List String)
    (h : f.entries.length < fuel) :
    scanLoop fuel f names = some (names ++ subdirNames f.entries) := by
  induction fuel generalizing f names with
  | zero => omega
  | succ fuel ih =>
    unfold scanLoop Readdir
    by_cases hnil : f.entries.take 512 = []
    · have he : f.entries = [] := by
        rcases hf : f.entries with _ | ⟨x, xs⟩
        · rfl
        · rw [hf] at hnil; simp at hnil
      simp [hnil, he, collectNames_eq, subdirNames]
    · simp only [hnil, if_false, ne_eq, not_true_eq_false]
      have hpos : 0 < f.entries.length := by
        rcases hf : f.entries with _ | ⟨x, xs⟩
        · rw [hf] at hnil; simp at hnil
        · simp
      rw [ih _ _ (by simp only [List.length_drop]; omega), collectNames_eq, List.append_assoc,
        ← subdirNames_append, List.take_append_drop]

theorem set_of_getElem? {α : Type} (l : List α) (i : Nat) (a : α) (h : l[i]? = some a) :
    l.set i a = l := by
  induction l generalizing i with
  | nil => simp
  | cons x xs ih =>
    cases i with
    | zero => simp at h; simp [h]
    | succ i => simp at h; simp [ih i h]

/-- The heap after the child-creation loop: the node at `d` gains the pointers to the new
nodes, which are allocated at the end of the heap in the order of the names. -/
theorem addChildren_eq (names : List String) (heap : Heap) (d : Nat) (dir : Directory)
    (hd : heap[d]? = some dir) :
    addChildren heap d names =
      heap.set d { dir with children := dir.children ++ List.range' heap.length names.length }
        ++ names.map (freshChild d) := by
  induction names generalizing heap dir with
  | nil =>
    have : heap.set d dir = heap := set_of_getElem? heap d dir hd
    simp [addChildren, this]
  | cons n ns ih =>
    have hlt : d < heap.length := by
      rw [List.getElem?_eq_some_iff] at hd; exact hd.1
    have h1 : (heap ++ [freshChild d n])[d]? = some dir := by
      rw [List.getElem?_append_left hlt]; exact hd
    have hstep : addChildren heap d (n :: ns) =
        addChildren (heap.set d { dir with children := dir.children ++ [heap.length] }
          ++ [freshChild d n]) d ns := by
      simp only [addChildren, List.foldl_cons, NewDirectory, appendChild]
      unfold freshChild at h1
      rw [h1]
      simp only [List.set_append_left _ _ hlt]
      rfl
    rw [hstep]
    have h2 : (heap.set d { dir with children := dir.children ++ [heap.length] }
        ++ [freshChild d n])[d]? = some { dir with children := dir.children ++ [heap.length] } := by
      rw [List.getElem?_append_left (by simpa using hlt)]
      simp [hlt]
    rw [ih _ _ h2]
    simp only [List.length_append, List.length_set, List.length_singleton, List.length_cons,
      List.map_cons]
    rw [List.set_append_left _ _ (by simpa using hlt), List.set_set, List.append_assoc,
      List.append_assoc, List.range'_succ]
    simp

theorem filterMap_range'_append {α : Type} (l2 l1 : List α) :
    (List.range' l1.length l2.length).filterMap (fun c => (l1 ++ l2)[c]?) = l2 := by
  induction l2 generalizing l1 with
  | nil => simp
  | cons x xs ih =>
    have h := ih (l1 ++ [x])
    simp only [List.length_append, List.length_singleton, List.append_assoc,
      List.singleton_append] at h
    simp only [List.length_cons, List.range'_succ, List.filterMap_cons]
    have h0 : (l1 ++ x :: xs)[l1.length]? = some x := by
      rw [List.getElem?_append_right (le_refl _)]; simp
    rw [h0, h]

/-- The heap `Directory.scan` leaves for a node without children whose directory was opened:
the node holds, in sorted order of the names, the pointers to one new node per surviving
entry, and its `ready` channel is closed. -/
theorem Directory.scan_ok_eq (heap : Heap) (d : Nat) (dir : Directory) (f : DirStream)
    (hd : heap[d]? = some dir) (hfresh : dir.children = []) :
    Directory.scan heap d (.ok f) = some
      (heap.set d { dir with
          children := List.range' heap.length (sortStrings (subdirNames f.entries)).length,
          ready := true }
        ++ (sortStrings (subdirNames f.entries)).map (freshChild d)) := by
  have hlt : d < heap.length := by
    rw [List.getElem?_eq_some_iff] at hd; exact hd.1
  unfold Directory.scan
  rw [hd]
  simp only [scanLoop_eq _ f [] (Nat.lt_succ_self _), List.nil_append]
  rw [addChildren_eq _ heap d dir hd, hfresh, List.nil_append]
  unfold closeReady
  rw [List.getElem?_append_left (by simpa using hlt)]
  simp only [List.getElem?_set_self hlt]
  rw [List.set_append_left _ _ (by simpa using hlt), List.set_set]

theorem sortStrings_sorted (names : List String) :
    List.Sorted (fun a b : String => a ≤ b) (sortStrings names) := by
  haveI : IsTotal String (fun a b => a.toList ≤ b.toList) :=
    ⟨fun a b => le_total a.toList b.toList⟩
  haveI : IsTrans String (fun a b => a.toList ≤ b.toList) :=
    ⟨fun a b c hab hbc => le_trans hab hbc⟩
  have h := List.sorted_insertionSort (fun a b : String => a.toList ≤ b.toList) names
  exact List.Pairwise.imp (fun hab => String.le_iff_toList_le.mpr hab) h

theorem sortStrings_perm (names : List String) : (sortStrings names).Perm names :=
  List.perm_insertionSort _ names

theorem childrenOf_set_append (heap : Heap) (d : Nat) (D : Directory) (l2 : List Directory)
    (hlt : d < heap.length) (hc : D.children = List.range' heap.length l2.length) :
    childrenOf (heap.set d D ++ l2) d = l2 := by
  have hlen : (heap.set d D).length = heap.length := List.length_set _ _ _
  have hget : (heap.set d D ++ l2)[d]? = some D := by
    rw [List.getElem?_append_left (by simpa using hlt)]
    exact List.getElem?_set_self hlt
  unfold childrenOf
  rw [hget]
  show List.filterMap (fun c => (List.set heap d D ++ l2)[c]?) D.children = l2
  rw [hc]
  have := filterMap_range'_append l2 (heap.set d D)
  simp only [hlen] at this
  exact this

theorem subdirNames_length (entries : List FileInfo) :
    (subdirNames entries).length =
      (entries.filter (fun info => info.IsDir && !shouldExclude info.Name)).length := by
  simp [subdirNames]

/-- C8. For a node without children whose directory is opened and listed, `Directory.scan`
returns, and afterwards the children of the node are one `Directory` per entry that is a
directory and is not excluded: their names are the sorted list of those entries' names (sorted
ascending, a permutation of the surviving names, so files and excluded names give no child),
every child has the scanned node as parent, the child pointers are allocated and distinct, and
`ChildCount` returns the number of surviving entries. -/
theorem Directory.scan_children (heap : Heap) (d : Nat) (dir : Directory) (f : DirStream)
    (hd : heap[d]? = some dir) (hfresh : dir.children = []) (honce : dir.once = false) :
    ∃ heap1 dir1, Directory.scan heap d (.ok f) = some heap1 ∧ heap1[d]? = some dir1 ∧
      (childrenOf heap1 d).map (fun c => c.name) = sortStrings (subdirNames f.entries) ∧
      List.Sorted (fun a b : String => a ≤ b) ((childrenOf heap1 d).map (fun c => c.name)) ∧
      ((childrenOf heap1 d).map (fun c => c.name)).Perm (subdirNames f.entries) ∧
      (∀ c ∈ childrenOf heap1 d, c.parent = some d) ∧
      (childrenOf heap1 d).length = dir1.children.length ∧ dir1.children.Nodup ∧
      ∃ heap2, Directory.ChildCount heap d (.ok f) = some (heap2,
          (f.entries.filter (fun info => info.IsDir && !shouldExclude info.Name)).length) ∧
        childrenOf heap2 d = childrenOf heap1 d := by
  have hlt : d < heap.length := by
    rw [List.getElem?_eq_some_iff] at hd; exact hd.1
  have hscan := Directory.scan_ok_eq heap d dir f hd hfresh
  set ns := sortStrings (subdirNames f.entries) with hns
  set D : Directory := { dir with children := List.range' heap.length ns.length, ready := true }
    with hD
  have hlen : (heap.set d D).length = heap.length := List.length_set _ _ _
  have hget : (heap.set d D ++ ns.map (freshChild d))[d]? = some D := by
    rw [List.getElem?_append_left (by simpa using hlt)]
    exact List.getElem?_set_self hlt
  have hch : childrenOf (heap.set d D ++ ns.map (freshChild d)) d = ns.map (freshChild d) :=
    childrenOf_set_append heap d D _ hlt (by simp [hD])
  have hnames' : ∀ l : List String, (l.map (freshChild d)).map (fun c => c.name) = l := by
    intro l
    induction l with
    | nil => rfl
    | cons x xs ih => simp only [List.map_cons, ih]; rfl
  have hnames := hnames' ns
  refine ⟨_, D, hscan, hget, ?_, ?_, ?_, ?_, ?_, List.nodup_range' _ _, ?_⟩
  · rw [hch, hnames]
  · rw [hch, hnames]; exact sortStrings_sorted _
  · rw [hch, hnames]; exact sortStrings_perm _
  · intro c hc
    rw [hch] at hc
    simp only [List.mem_map] at hc
    obtain ⟨n, _, rfl⟩ := hc
    rfl
  · rw [hch]; simp [hD]
  · refine ⟨(heap.set d D ++ ns.map (freshChild d)).set d { D with once := true }, ?_, ?_⟩
    · unfold Directory.ChildCount Directory.onceDoScan
      rw [hd]
      simp only [honce, Bool.false_eq_true, if_false]
      rw [hscan]
      simp only [hget]
      have hlt2 : d < (heap.set d D ++ ns.map (freshChild d)).length := by
        simp only [List.length_append, hlen]; omega
      rw [List.getElem?_set_self hlt2]
      have hcount : ns.length =
          (f.entries.filter (fun info => info.IsDir && !shouldExclude info.Name)).length := by
        rw [hns, (sortStrings_perm _).length_eq, subdirNames_length]
      simp [hD, hcount]
    · rw [hch, List.set_append_left _ _ (by simpa using hlt), List.set_set]
      exact childrenOf_set_append heap d _ _ hlt (by simp [hD])

theorem Directory.scan_children_witness :
    ∃ heap1 dir1,
      Directory.scan [⟨"C:", none, false, [], false⟩] 0
        (.ok ⟨[⟨"b", true⟩, ⟨"x.dwg", false⟩, ⟨"$RECYCLE.BIN", true⟩, ⟨"a", true⟩], .EOF⟩)
        = some heap1 ∧
      heap1[0]? = some dir1 ∧ (childrenOf heap1 0).map (fun c => c.name) = ["a", "b"] ∧
      (childrenOf heap1 0).length = dir1.children.length := by
  obtain ⟨heap1, dir1, h1, h2, h3, -, -, -, h7, -⟩ :=
    Directory.scan_children [⟨"C:", none, false, [], false⟩] 0 ⟨"C:", none, false, [], false⟩
      ⟨[⟨"b", true⟩, ⟨"x.dwg", false⟩, ⟨"$RECYCLE.BIN", true⟩, ⟨"a", true⟩], .EOF⟩ rfl rfl rfl
  exact ⟨heap1, dir1, h1, h2, by rw [h3]; decide, h7⟩

/-! ## scanner.go, phase 1 -/

/-- The callback only ever adds the path it is called on, and only for an entry that is
not a directory. -/
theorem walkFn_queue (s : CrawlState) (path : List String) (info : Option FileInfo) (err : Bool) :
    (walkFn s path info err).1.queue = s.queue ∨
      ((walkFn s path info err).1.queue = s.queue ++ [path] ∧
        ∃ i, info = some i ∧ i.IsDir = false) := by
  by_cases h0 : s.budget = 0
  · left; simp [walkFn, h0]
  · rcases info with _ | info
    · left; simp [walkFn, h0]
    · cases err
      · cases hD : info.IsDir
        · cases hF : isDrawingFile info.Name
          · left; simp [walkFn, h0, hD, hF]
          · right
            exact ⟨by simp [walkFn, h0, hD, hF], info, rfl, hD⟩
        · cases hE : shouldExclude info.Name <;> (left; simp [walkFn, h0, hD, hE])
      · left; simp [walkFn, h0]

/-- The callback returns nil on a directory only when its name is not excluded. -/
theorem walkFn_dir_nil (s : CrawlState) (path : List String) (name : String) (err : Bool)
    (h : (walkFn s path (some { Name := name, IsDir := true }) err).2 = none) :
    shouldExclude name = false := by
  by_cases h0 : s.budget = 0
  · simp [walkFn, h0] at h
  · cases err
    · cases hE : shouldExclude name
      · rfl
      · simp [walkFn, h0, hE] at h
    · simp [walkFn, h0] at h

theorem cleanPath_snoc (path : List String) (name : String)
    (h : ∀ n ∈ path, shouldExclude n = false) : cleanPath (path ++ [name]) := by
  intro n hn
  rw [List.dropLast_concat] at hn
  exact h n hn

mutual
/-- Walking an entry below non-excluded directories only adds clean paths. -/
theorem walkNode_clean (s : CrawlState) (path : List String)
    (hp : ∀ n ∈ path, shouldExclude n = false) (hq : ∀ q ∈ s.queue, cleanPath q) :
    ∀ node : FsNode, ∀ q ∈ (walkNode s path node).1.queue, cleanPath q
  | .noStat name => by
    intro q hq'
    rw [walkNode] at hq'
    rcases walkFn_queue s (path ++ [name]) none true with h | ⟨_, i, hi, _⟩
    · rw [h] at hq'; exact hq q hq'
    · cases hi
  | .file name => by
    intro q hq'
    rw [walkNode] at hq'
    rcases walkFn_queue s (path ++ [name]) (some { Name := name, IsDir := false }) false
      with h | ⟨h, _⟩
    · rw [h] at hq'; exact hq q hq'
    · rw [h, List.mem_append, List.mem_singleton] at hq'
      rcases hq' with hq' | rfl
      · exact hq q hq'
      · exact cleanPath_snoc path name hp
  | .dir name readErr entries => by
    intro q hq'
    rw [walkNode] at hq'
    have hfn : ∀ q ∈ (walkFn s (path ++ [name]) (some { Name := name, IsDir := true })
        readErr).1.queue, cleanPath q := by
      intro q hq1
      rcases walkFn_queue s (path ++ [name]) (some { Name := name, IsDir := true }) readErr
        with h | ⟨_, i, hi, hdir⟩
      · rw [h] at hq1; exact hq q hq1
      · cases hi; cases hdir
    rcases hw : walkFn s (path ++ [name]) (some { Name := name, IsDir := true }) readErr
      with ⟨s1, err1⟩
    rw [hw] at hq' hfn
    simp only at hq' hfn
    split_ifs at hq' with hc
    · exact hfn q hq'
    · have hnil : err1 = none := by
        rcases err1 with _ | e
        · rfl
        · simp at hc
      have hex : shouldExclude name = false :=
        walkFn_dir_nil s (path ++ [name]) name readErr (by rw [hw]; exact hnil)
      have hp' : ∀ n ∈ path ++ [name], shouldExclude n = false := by
        intro n hn
        rw [List.mem_append, List.mem_singleton] at hn
        rcases hn with hn | rfl
        · exact hp n hn
        · exact hex
      exact walkEntries_clean s1 (path ++ [name]) hp' hfn entries q hq'
/-- Walking the entries of a directory whose path holds no excluded name only adds clean
paths. -/
theorem walkEntries_clean (s : CrawlState) (path : List String)
    (hp : ∀ n ∈ path, shouldExclude n = false) (hq : ∀ q ∈ s.queue, cleanPath q) :
    ∀ entries : List FsNode, ∀ q ∈ (walkEntries s path entries).1.queue, cleanPath q
  | [] => by
    intro q hq'
    rw [walkEntries] at hq'
    exact hq q hq'
  | e :: rest => by
    intro q hq'
    rw [walkEntries] at hq'
    have h1 := walkNode_clean s path hp hq e
    rcases hw : walkNode s path e with ⟨s1, _ | err⟩
    · rw [hw] at hq' h1
      exact walkEntries_clean s1 path hp h1 rest q hq'
    · rw [hw] at hq' h1
      simp only at hq' h1
      cases e with
      | noStat name =>
        simp only at hq'
        split_ifs at hq'
        · exact h1 q hq'
        · exact walkEntries_clean s1 path hp h1 rest q hq'
      | file name =>
        simp only at hq'
        split_ifs at hq'
        · exact h1 q hq'
        · exact walkEntries_clean s1 path hp h1 rest q hq'
      | dir name readErr entries =>
        simp only at hq'
        split_ifs at hq'
        · exact h1 q hq'
        · exact walkEntries_clean s1 path hp h1 rest q hq'
end

/-! ## scanner.go: the token pool -/

theorem countP_set {α : Type} (p : α → Bool) (l : List α) (i : Nat) (x y : α)
    (h : l[i]? = some y) :
    (l.set i x).countP p + (if p y then 1 else 0) = l.countP p + (if p x then 1 else 0) := by
  induction l generalizing i with
  | nil => simp at h
  | cons a as ih =>
    cases i with
    | zero =>
      simp only [List.getElem?_cons_zero, Option.some.injEq] at h
      subst h
      simp only [List.set_cons_zero, List.countP_cons]
      omega
    | succ i =>
      simp only [List.getElem?_cons_succ] at h
      have := ih i h
      simp only [List.set_cons_succ, List.countP_cons]
      omega

theorem step_workers (l : Label) (s s1 : Scanner) (h : step l s = some s1) :
    s1.workers = s.workers := by
  cases l <;> simp only [step] at h <;> (repeat' split at h) <;>
    first
    | (cases h; done)
    | (simp only [Option.some.injEq] at h; subst h; rfl)

theorem step_TokInv (l : Label) (s s1 : Scanner) (h : step l s = some s1) (hT : TokInv s) :
    TokInv s1 := by
  unfold TokInv holders at *
  cases l <;> simp only [step] at h <;> (repeat' split at h) <;>
    first
    | (cases h; done)
    | (simp only [Option.some.injEq] at h; subst h; exact hT)
    | (simp only [Option.some.injEq] at h; subst h; simp only)
  case dispAcquire.h_1.isTrue =>
    rename_i hpos
    simp only [List.countP_append, List.countP_cons, List.countP_nil, Slot.holdsToken]
    simp only [if_true, Nat.zero_add]
    omega
  case workRead.h_1.isTrue =>
    rename_i i _ sl hsl hpc
    have := countP_set Slot.holdsToken s.slots i
      { sl with pc := .sent, buf := classify sl.path sl.file } sl hsl
    simp only [Slot.holdsToken, hpc, if_true] at this
    omega
  case workRelease.h_1.isTrue =>
    rename_i i _ sl hsl hpc
    have := countP_set Slot.holdsToken s.slots i { sl with pc := .released } sl hsl
    simp only [Slot.holdsToken, hpc.1, if_true] at this
    simp only [Bool.false_eq_true, if_false] at this
    omega
  case workClose.h_1.isTrue =>
    rename_i i _ sl hsl hpc
    have := countP_set Slot.holdsToken s.slots i { sl with pc := .exited, closed := true } sl hsl
    simp only [Slot.holdsToken, hpc, Bool.false_eq_true, if_false] at this
    omega
  case collRead.h_1.h_1.h_1 =>
    rename_i i _ _ sl hsl _ file hbuf
    have := countP_set Slot.holdsToken s.slots i { sl with buf := none } sl hsl
    simp only [Slot.holdsToken] at this
    omega

theorem run_TokInv (ls : List Label) (s s1 : Scanner) (h : run ls s = some s1)
    (hT : TokInv s) : TokInv s1 ∧ s1.workers = s.workers := by
  induction ls generalizing s with
  | nil => simp only [run, Option.some.injEq] at h; subst h; exact ⟨hT, rfl⟩
  | cons l ls ih =>
    simp only [run] at h
    split at h
    · rename_i s2 hs2
      obtain ⟨h1, h2⟩ := ih s2 h (step_TokInv l s s2 hs2 hT)
      exact ⟨h1, by rw [h2, step_workers l s s2 hs2]⟩
    · cases h

theorem stop_TokInv (sched : List Label) (s s1 : Scanner) (b : Bool)
    (h : Scanner.stop sched s = some (b, s1)) (hT : TokInv s) :
    TokInv s1 ∧ s1.workers = s.workers := by
  unfold Scanner.stop at h
  split_ifs at h with h1 h2
  · simp only [Option.some.injEq, Prod.mk.injEq] at h; rw [← h.2]; exact ⟨hT, rfl⟩
  · simp only [Option.some.injEq, Prod.mk.injEq] at h; rw [← h.2]; exact ⟨hT, rfl⟩
  · split at h
    · rename_i s2 hs2
      split_ifs at h
      simp only [Option.some.injEq, Prod.mk.injEq] at h
      rw [← h.2]
      exact run_TokInv sched { s with cancelled := true } s2 hs2 hT
    · cases h

theorem exec_TokInv (a : Action) (s s1 : Scanner) (h : exec a s = some s1) (hT : TokInv s) :
    TokInv s1 ∧ s1.workers = s.workers := by
  cases a with
  | step l => exact ⟨step_TokInv l s s1 h hT, step_workers l s s1 h⟩
  | Stop sched =>
    simp only [exec, Scanner.Stop, Option.map_eq_some'] at h
    obtain ⟨⟨b, s2⟩, h2, rfl⟩ := h
    exact stop_TokInv sched s s2 b h2 hT
  | Scan input sched =>
    simp only [exec, Scanner.Scan] at h
    split at h
    · rename_i b s2 hs2
      simp only [Option.some.injEq] at h
      rw [← h]
      exact stop_TokInv sched s s2 b hs2 hT
    · cases h

theorem execAll_TokInv (acts : List Action) (s s1 : Scanner) (h : execAll acts s = some s1)
    (hT : TokInv s) : TokInv s1 ∧ s1.workers = s.workers := by
  induction acts generalizing s with
  | nil => simp only [execAll, Option.some.injEq] at h; subst h; exact ⟨hT, rfl⟩
  | cons a as ih =>
    simp only [execAll] at h
    split at h
    · rename_i s2 hs2
      obtain ⟨h1, h2⟩ := exec_TokInv a s s2 hs2 hT
      obtain ⟨h3, h4⟩ := ih s2 h h1
      exact ⟨h3, by rw [h4, h2]⟩
    · cases h

theorem readers_le_holders (slots : List Slot) : readers slots ≤ holders slots := by
  unfold readers holders
  apply List.countP_mono_left
  intro sl _ h
  simp only [decide_eq_true_eq] at h
  simp [Slot.holdsToken, h]

/-- C2. In every state a scanner built by `NewScanner(model, k)` reaches, through any steps of
its goroutines and any calls of `Scan` and `Stop`, the tokens in the pool plus the workers
that are started and have not returned their token add up to `k`; so at most `k` workers are
inside `ReadDrawingVersion`.  A worker that is reading can always finish its read, whatever
the outcome, and a worker that has finished can always put its token back. -/
theorem token_pool_bound (files : List File) (k : Nat) (acts : List Action) (s : Scanner)
    (h : execAll acts (NewScanner files k) = some s) :
    s.tokens + holders s.slots = k ∧ readers s.slots ≤ k ∧
    (∀ i sl, s.slots[i]? = some sl → sl.pc = .reading →
      ∃ s1 sl1, step (.workRead i) s = some s1 ∧ s1.slots[i]? = some sl1 ∧ sl1.pc = .sent) ∧
    (∀ i sl, s.slots[i]? = some sl → sl.pc = .sent →
      ∃ s1 sl1, step (.workRelease i) s = some s1 ∧ s1.tokens = s.tokens + 1 ∧
        s1.slots[i]? = some sl1 ∧ sl1.pc = .released) := by
  have h0 : TokInv (NewScanner files k) := by simp [TokInv, NewScanner, holders]
  obtain ⟨hT, hw⟩ := execAll_TokInv acts _ s h h0
  have hk : s.workers = k := hw
  have hsum : s.tokens + holders s.slots = k := by rw [← hk]; exact hT
  refine ⟨hsum, ?_, ?_, ?_⟩
  · have := readers_le_holders s.slots; omega
  · intro i sl hsl hpc
    have hlt : i < s.slots.length := by
      rw [List.getElem?_eq_some_iff] at hsl; exact hsl.1
    refine ⟨{ s with
        slots := s.slots.set i ({ sl with pc := .sent, buf := classify sl.path sl.file }) },
      { sl with pc := .sent, buf := classify sl.path sl.file }, ?_, ?_, rfl⟩
    · simp only [step, hsl, hpc, if_true]
    · exact List.getElem?_set_self hlt
  · intro i sl hsl hpc
    have hlt : i < s.slots.length := by
      rw [List.getElem?_eq_some_iff] at hsl; exact hsl.1
    have hpos : 0 < holders s.slots := by
      unfold holders
      rw [List.countP_pos_iff]
      exact ⟨sl, List.getElem?_mem hsl, by simp [Slot.holdsToken, hpc]⟩
    have hlt2 : s.tokens < s.workers := by omega
    refine ⟨{ s with tokens := s.tokens + 1, slots := s.slots.set i { sl with pc := .released } },
      { sl with pc := .released }, ?_, rfl, ?_, rfl⟩
    · simp only [step, hsl, hpc, hlt2, and_self, if_true]
    · exact List.getElem?_set_self hlt

/-! ## scanner.go: the goroutines of a scan -/

theorem step_ShapeInv (l : Label) (s s1 : Scanner) (h : step l s = some s1) (hS : ShapeInv s) :
    ShapeInv s1 := by
  unfold ShapeInv at *
  cases l <;> simp only [step] at h <;> (repeat' split at h) <;>
    first
    | (cases h; done)
    | (simp only [Option.some.injEq] at h; subst h; simp_all)

/-! ### What each action requires and does -/

theorem step_start {s s1 : Scanner} (h : step .start s = some s1) :
    s.collector = .notStarted ∧
    s1 = { s with files := [], crawler := .walking s.input, dispatcher := .receiving,
                  collector := .selecting } := by
  simp only [step] at h
  split at h
  · rename_i hc
    simp only [Option.some.injEq] at h
    exact ⟨hc, h.symm⟩
  · cases h

theorem step_crawlNext {s s1 : Scanner} (h : step .crawlNext s = some s1) :
    (s.crawler = .walking [] ∧ s1 = { s with crawler := .done }) ∨
    (∃ p rest, s.crawler = .walking (p :: rest) ∧ s.cancelled = true ∧
      s1 = { s with crawler := .done }) ∨
    (∃ p rest, s.crawler = .walking (p :: rest) ∧ s.cancelled = false ∧
      s1 = { s with crawler := .sending p rest }) := by
  simp only [step] at h
  split at h
  · rename_i hc
    simp only [Option.some.injEq] at h
    exact Or.inl ⟨hc, h.symm⟩
  · rename_i p rest hc
    split_ifs at h with hcan
    · simp only [Option.some.injEq] at h
      exact Or.inr (Or.inl ⟨p, rest, hc, hcan, h.symm⟩)
    · simp only [Option.some.injEq] at h
      exact Or.inr (Or.inr ⟨p, rest, hc, by simpa using hcan, h.symm⟩)
  · cases h

theorem step_crawlSend {s s1 : Scanner} (h : step .crawlSend s = some s1) :
    ∃ p rest, s.crawler = .sending p rest ∧ s.queue.length < queueCap ∧
      s1 = { s with queue := s.queue ++ [p], crawler := .walking rest } := by
  simp only [step] at h
  split at h
  · rename_i p rest hc
    split_ifs at h with hlt
    simp only [Option.some.injEq] at h
    exact ⟨p, rest, hc, hlt, h.symm⟩
  · cases h

theorem step_dispRecv {s s1 : Scanner} (h : step .dispRecv s = some s1) :
    s.dispatcher = .receiving ∧
    ((∃ p q, s.queue = p :: q ∧ s1 = { s with queue := q, dispatcher := .selecting p }) ∨
     (s.queue = [] ∧ s.crawler = .done ∧ s1 = { s with dispatcher := .done })) := by
  simp only [step] at h
  split at h
  · rename_i hd
    split at h
    · rename_i p q hq
      simp only [Option.some.injEq] at h
      exact ⟨hd, Or.inl ⟨p, q, hq, h.symm⟩⟩
    · rename_i hq
      split_ifs at h with hc
      simp only [Option.some.injEq] at h
      exact ⟨hd, Or.inr ⟨hq, hc, h.symm⟩⟩
  · cases h

theorem step_dispAcquire {s s1 : Scanner} (h : step .dispAcquire s = some s1) :
    ∃ p, s.dispatcher = .selecting p ∧ 0 < s.tokens ∧
      s1 = { s with tokens := s.tokens - 1,
                    slots := s.slots ++ [{ path := p.path, file := p.file, pc := .reading,
                                           buf := none, closed := false }],
                    dispatcher := .sendingResult s.slots.length } := by
  simp only [step] at h
  split at h
  · rename_i p hd
    split_ifs at h with hlt
    simp only [Option.some.injEq] at h
    exact ⟨p, hd, hlt, h.symm⟩
  · cases h

theorem step_dispCancel {s s1 : Scanner} (h : step .dispCancel s = some s1) :
    ∃ p, s.dispatcher = .selecting p ∧ s.cancelled = true ∧
      s1 = { s with dispatcher := .draining } := by
  simp only [step] at h
  split at h
  · rename_i p hd
    split_ifs at h with hc
    simp only [Option.some.injEq] at h
    exact ⟨p, hd, hc, h.symm⟩
  · cases h

theorem step_dispDrain {s s1 : Scanner} (h : step .dispDrain s = some s1) :
    s.dispatcher = .draining ∧
    ((∃ p q, s.queue = p :: q ∧ s1 = { s with queue := q }) ∨
     (s.queue = [] ∧ s.crawler = .done ∧ s1 = { s with dispatcher := .done })) := by
  simp only [step] at h
  split at h
  · rename_i hd
    split at h
    · rename_i p q hq
      simp only [Option.some.injEq] at h
      exact ⟨hd, Or.inl ⟨p, q, hq, h.symm⟩⟩
    · rename_i hq
      split_ifs at h with hc
      simp only [Option.some.injEq] at h
      exact ⟨hd, Or.inr ⟨hq, hc, h.symm⟩⟩
  · cases h

theorem step_dispSend {s s1 : Scanner} (h : step .dispSend s = some s1) :
    ∃ i, s.dispatcher = .sendingResult i ∧ s.results.length < resultsCap ∧
      s1 = { s with results := s.results ++ [i], dispatcher := .receiving } := by
  simp only [step] at h
  split at h
  · rename_i i hd
    split_ifs at h with hlt
    simp only [Option.some.injEq] at h
    exact ⟨i, hd, hlt, h.symm⟩
  · cases h

theorem step_workRead {s s1 : Scanner} {i : Nat} (h : step (.workRead i) s = some s1) :
    ∃ sl, s.slots[i]? = some sl ∧ sl.pc = .reading ∧
      s1 = { s with
        slots := s.slots.set i ({ sl with pc := .sent, buf := classify sl.path sl.file }) } := by
  simp only [step] at h
  split at h
  · rename_i sl hsl
    split_ifs at h with hpc
    simp only [Option.some.injEq] at h
    exact ⟨sl, hsl, hpc, h.symm⟩
  · cases h

theorem step_workRelease {s s1 : Scanner} {i : Nat} (h : step (.workRelease i) s = some s1) :
    ∃ sl, s.slots[i]? = some sl ∧ sl.pc = .sent ∧ s.tokens < s.workers ∧
      s1 = { s with tokens := s.tokens + 1,
                    slots := s.slots.set i ({ sl with pc := .released }) } := by
  simp only [step] at h
  split at h
  · rename_i sl hsl
    split_ifs at h with hpc
    simp only [Option.some.injEq] at h
    exact ⟨sl, hsl, hpc.1, hpc.2, h.symm⟩
  · cases h

theorem step_workClose {s s1 : Scanner} {i : Nat} (h : step (.workClose i) s = some s1) :
    ∃ sl, s.slots[i]? = some sl ∧ sl.pc = .released ∧
      s1 = { s with slots := s.slots.set i ({ sl with pc := .exited, closed := true }) } := by
  simp only [step] at h
  split at h
  · rename_i sl hsl
    split_ifs at h with hpc
    simp only [Option.some.injEq] at h
    exact ⟨sl, hsl, hpc, h.symm⟩
  · cases h

theorem step_collRecv {s s1 : Scanner} (h : step .collRecv s = some s1) :
    s.collector = .selecting ∧
    ((∃ i r, s.results = i :: r ∧ s1 = { s with results := r, collector := .waiting i }) ∨
     (s.results = [] ∧ s.dispatcher = .done ∧
      s1 = { s with files := ScanModel.Append s.files s.batch, batch := [],
                    collector := .done })) := by
  simp only [step] at h
  split at h
  · rename_i hc
    split at h
    · rename_i i r hr
      simp only [Option.some.injEq] at h
      exact ⟨hc, Or.inl ⟨i, r, hr, h.symm⟩⟩
    · rename_i hr
      split_ifs at h with hd
      simp only [Option.some.injEq] at h
      exact ⟨hc, Or.inr ⟨hr, hd, h.symm⟩⟩
  · cases h

theorem step_collRead {s s1 : Scanner} (h : step .collRead s = some s1) :
    ∃ i sl, s.collector = .waiting i ∧ s.slots[i]? = some sl ∧
      ((∃ file, sl.buf = some file ∧
          s1 = { s with batch := s.batch ++ [file],
                        slots := s.slots.set i ({ sl with buf := none }),
                        collector := .selecting }) ∨
       (sl.buf = none ∧ sl.closed = true ∧ s1 = { s with collector := .selecting })) := by
  simp only [step] at h
  split at h
  · rename_i i hc
    split at h
    · rename_i sl hsl
      split at h
      · rename_i file hb
        simp only [Option.some.injEq] at h
        exact ⟨i, sl, hc, hsl, Or.inl ⟨file, hb, h.symm⟩⟩
      · rename_i hb
        split_ifs at h with hcl
        simp only [Option.some.injEq] at h
        exact ⟨i, sl, hc, hsl, Or.inr ⟨hb, hcl, h.symm⟩⟩
    · cases h
  · cases h

theorem step_collTick {s s1 : Scanner} (h : step .collTick s = some s1) :
    s.collector = .selecting ∧
    s1 = { s with files := ScanModel.Append s.files s.batch, batch := [] } := by
  simp only [step] at h
  split at h
  · rename_i hc
    simp only [Option.some.injEq] at h
    exact ⟨hc, h.symm⟩
  · cases h

theorem step_cancelCtx {s s1 : Scanner} (h : step .cancelCtx s = some s1) :
    s1 = { s with cancelled := true } := by
  simp only [step, Option.some.injEq] at h
  exact h.symm

theorem ScanModel.Append_eq (files results : List File) :
    ScanModel.Append files results = files ++ results := by
  unfold ScanModel.Append
  split_ifs with h
  · rw [List.length_eq_zero] at h; simp [h]
  · rfl

/-! ### The pending result channels -/

theorem SlotOk_read (sl : Slot) (_h : SlotOk sl) (hpc : sl.pc = .reading) :
    SlotOk { sl with pc := .sent, buf := classify sl.path sl.file } := by
  obtain ⟨_, _, h3⟩ := _h
  refine ⟨by simp, by simp, ?_⟩
  simp only [hpc] at h3
  simpa using h3

theorem SlotOk_release (sl : Slot) (h : SlotOk sl) (hpc : sl.pc = .sent) :
    SlotOk { sl with pc := .released } := by
  obtain ⟨_, h2, h3⟩ := h
  refine ⟨by simp, fun _ => h2 (by simp [hpc]), ?_⟩
  simp only [hpc] at h3
  simpa using h3

theorem SlotOk_close (sl : Slot) (h : SlotOk sl) (hpc : sl.pc = .released) :
    SlotOk { sl with pc := .exited, closed := true } := by
  obtain ⟨_, h2, _⟩ := h
  exact ⟨by simp, fun _ => h2 (by simp [hpc]), by simp⟩

/-- The pending channels stay in order when their list only shrinks and each of them keeps a
sound state. -/
theorem PendingInv_mono {s s1 : Scanner} (hP : PendingInv s)
    (hsub : (pendingSlots s1).Sublist (pendingSlots s))
    (hsl : ∀ j ∈ pendingSlots s1, ∀ sl, s.slots[j]? = some sl → SlotOk sl →
      ∃ sl1, s1.slots[j]? = some sl1 ∧ SlotOk sl1) : PendingInv s1 := by
  refine ⟨hP.1.sublist hsub, ?_⟩
  intro j hj
  obtain ⟨sl, h1, h2⟩ := hP.2 j (hsub.subset hj)
  exact hsl j hj sl h1 h2

/-- A worker step on channel `i` keeps every pending channel sound. -/
theorem PendingInv_set {s s1 : Scanner} (hP : PendingInv s) (i : Nat) (sl sl1 : Slot)
    (hi : s.slots[i]? = some sl) (hok : SlotOk sl → SlotOk sl1)
    (hpend : pendingSlots s1 = pendingSlots s) (hslots : s1.slots = s.slots.set i sl1) :
    PendingInv s1 := by
  apply PendingInv_mono hP (by rw [hpend])
  intro j _ slj hj hokj
  have hlt : i < s.slots.length := by
    rw [List.getElem?_eq_some_iff] at hi; exact hi.1
  by_cases hij : i = j
  · subst hij
    rw [hi] at hj
    cases hj
    exact ⟨sl1, by rw [hslots]; exact List.getElem?_set_self hlt, hok hokj⟩
  · exact ⟨slj, by rw [hslots, List.getElem?_set_ne hij]; exact hj, hokj⟩

theorem step_PendingInv (l : Label) (s s1 : Scanner) (h : step l s = some s1)
    (hP : PendingInv s) : PendingInv s1 := by
  cases l with
  | start =>
    obtain ⟨hc, rfl⟩ := step_start h
    exact PendingInv_mono hP (by simp [pendingSlots, hc]) (fun j _ sl h1 h2 => ⟨sl, h1, h2⟩)
  | crawlNext =>
    rcases step_crawlNext h with ⟨_, rfl⟩ | ⟨_, _, _, _, rfl⟩ | ⟨_, _, _, _, rfl⟩ <;> exact hP
  | crawlSend =>
    obtain ⟨_, _, _, _, rfl⟩ := step_crawlSend h
    exact hP
  | dispRecv =>
    obtain ⟨hd, ⟨_, _, _, rfl⟩ | ⟨_, _, rfl⟩⟩ := step_dispRecv h <;>
      exact PendingInv_mono hP (by simp [pendingSlots, hd]) (fun j _ sl h1 h2 => ⟨sl, h1, h2⟩)
  | dispAcquire =>
    obtain ⟨p, hd, _, rfl⟩ := step_dispAcquire h
    have hpend : pendingSlots s = (match s.collector with
        | .waiting i => [i]
        | _ => []) ++ s.results := by simp [pendingSlots, hd]
    have hlt : ∀ j ∈ pendingSlots s, j < s.slots.length := by
      intro j hj
      obtain ⟨sl, h1, _⟩ := hP.2 j hj
      rw [List.getElem?_eq_some_iff] at h1; exact h1.1
    have hnew : pendingSlots { s with
        tokens := s.tokens - 1,
        slots := s.slots ++ [{ path := p.path, file := p.file, pc := .reading,
                               buf := none, closed := false }],
        dispatcher := .sendingResult s.slots.length } = pendingSlots s ++ [s.slots.length] := by
      rw [hpend]; simp [pendingSlots]
    refine ⟨?_, ?_⟩
    · rw [hnew]
      refine List.Nodup.append hP.1 (List.nodup_singleton _) ?_
      intro j hj1 hj2
      simp only [List.mem_singleton] at hj2
      have := hlt j hj1
      omega
    · intro j hj
      rw [hnew, List.mem_append, List.mem_singleton] at hj
      rcases hj with hj | rfl
      · obtain ⟨sl, h1, h2⟩ := hP.2 j hj
        exact ⟨sl, by simp only; rw [List.getElem?_append_left (hlt j hj)]; exact h1, h2⟩
      · exact ⟨{ path := p.path, file := p.file, pc := .reading, buf := none, closed := false },
          by simp, by simp [SlotOk]⟩
  | dispCancel =>
    obtain ⟨p, hd, _, rfl⟩ := step_dispCancel h
    exact PendingInv_mono hP (by simp [pendingSlots, hd]) (fun j _ sl h1 h2 => ⟨sl, h1, h2⟩)
  | dispDrain =>
    obtain ⟨hd, ⟨_, _, _, rfl⟩ | ⟨_, _, rfl⟩⟩ := step_dispDrain h <;>
      exact PendingInv_mono hP (by simp [pendingSlots, hd]) (fun j _ sl h1 h2 => ⟨sl, h1, h2⟩)
  | dispSend =>
    obtain ⟨i, hd, _, rfl⟩ := step_dispSend h
    exact PendingInv_mono hP (by simp [pendingSlots, hd]) (fun j _ sl h1 h2 => ⟨sl, h1, h2⟩)
  | workRead i =>
    obtain ⟨sl, hsl, hpc, rfl⟩ := step_workRead h
    exact PendingInv_set hP i sl _ hsl (fun hok => SlotOk_read sl hok hpc) rfl rfl
  | workRelease i =>
    obtain ⟨sl, hsl, hpc, _, rfl⟩ := step_workRelease h
    exact PendingInv_set hP i sl _ hsl (fun hok => SlotOk_release sl hok hpc) rfl rfl
  | workClose i =>
    obtain ⟨sl, hsl, hpc, rfl⟩ := step_workClose h
    exact PendingInv_set hP i sl _ hsl (fun hok => SlotOk_close sl hok hpc) rfl rfl
  | collRecv =>
    obtain ⟨hc, ⟨i, r, hr, rfl⟩ | ⟨hr, _, rfl⟩⟩ := step_collRecv h <;>
      exact PendingInv_mono hP (by simp [pendingSlots, hc, hr]) (fun j _ sl h1 h2 => ⟨sl, h1, h2⟩)
  | collRead =>
    obtain ⟨i, sl, hc, hsl, ⟨file, hb, rfl⟩ | ⟨hb, hcl, rfl⟩⟩ := step_collRead h
    · have hnd := hP.1
      apply PendingInv_mono hP (by simp [pendingSlots, hc])
      intro j hj slj h1 h2
      have hij : i ≠ j := by
        rintro rfl
        simp only [pendingSlots, hc, List.singleton_append, List.cons_append,
          List.nodup_cons] at hnd
        exact hnd.1 (by simpa [pendingSlots] using hj)
      exact ⟨slj, by simp only; rw [List.getElem?_set_ne hij]; exact h1, h2⟩
    · exact PendingInv_mono hP (by simp [pendingSlots, hc]) (fun j _ sl h1 h2 => ⟨sl, h1, h2⟩)
  | collTick =>
    obtain ⟨_, rfl⟩ := step_collTick h
    exact hP
  | cancelCtx =>
    rw [step_cancelCtx h]
    exact hP

/-! ### The order of the results -/

theorem slotValue_set (slots : List Slot) (i j : Nat) (sl sl1 : Slot)
    (hi : slots[i]? = some sl) (hp : sl1.path = sl.path) (hf : sl1.file = sl.file) :
    slotValue (slots.set i sl1) j = slotValue slots j := by
  have hlt : i < slots.length := by
    rw [List.getElem?_eq_some_iff] at hi; exact hi.1
  unfold slotValue
  by_cases hij : i = j
  · subst hij
    rw [List.getElem?_set_self hlt, hi]
    show classify sl1.path sl1.file = classify sl.path sl.file
    rw [hp, hf]
  · rw [List.getElem?_set_ne hij]

theorem slotValue_append_left (slots : List Slot) (x : Slot) (j : Nat) (hj : j < slots.length) :
    slotValue (slots ++ [x]) j = slotValue slots j := by
  unfold slotValue
  rw [List.getElem?_append_left hj]

theorem slotValue_append_new (slots : List Slot) (x : Slot) :
    slotValue (slots ++ [x]) slots.length = classify x.path x.file := by
  unfold slotValue
  rw [List.getElem?_append_right (le_refl _)]
  simp

theorem expected_append (xs ys : List Crawled) :
    expected (xs ++ ys) = expected xs ++ expected ys := by
  simp [expected]

theorem take_succ_of_drop {α : Type} (l : List α) (m : Nat) (p : α) (r : List α)
    (h : l.drop m = p :: r) : l.take (m + 1) = l.take m ++ [p] ∧ l.drop (m + 1) = r := by
  have h1 : l.drop (m + 1) = r := by
    have := congrArg (List.drop 1) h
    simpa [List.drop_drop, Nat.add_comm] using this
  refine ⟨?_, h1⟩
  have h2 : l = l.take m ++ (p :: r) := by rw [← h, List.take_append_drop]
  have hlen : (l.take m).length = m := by
    rw [List.length_take]
    have : (l.drop m).length = r.length + 1 := by rw [h]; rfl
    rw [List.length_drop] at this
    omega
  conv_lhs => rw [h2]
  rw [List.take_append_eq_append_take, hlen]
  simp

/-- An action that keeps the number of result channels and what is delivered keeps the
order invariant, provided it keeps the paths in flight in place. -/
theorem OrderInv_frame {base : Nat} {s s1 : Scanner} (hO : OrderInv base s)
    (hlen : s1.slots.length = s.slots.length) (hinput : s1.input = s.input)
    (hcoll : s1.collector = .notStarted ↔ s.collector = .notStarted)
    (hdel : s.collector ≠ .notStarted → delivered s1 = delivered s)
    (hfl : s.collector ≠ .notStarted →
      FlightInv (s.slots.length - base) s → FlightInv (s.slots.length - base) s1) :
    OrderInv base s1 := by
  obtain ⟨h1, h2, h3⟩ := hO
  refine ⟨by rw [hlen]; exact h1, fun hc => by rw [hlen]; exact h2 (hcoll.mp hc), ?_⟩
  intro hc
  have hc0 : s.collector ≠ .notStarted := fun h => hc (hcoll.mpr h)
  obtain ⟨hA, hB⟩ := h3 hc0
  rw [hlen, hinput, hdel hc0]
  exact ⟨hA, hfl hc0 hB⟩

theorem delivered_set (s : Scanner) (i : Nat) (sl sl1 : Slot) (hi : s.slots[i]? = some sl)
    (hp : sl1.path = sl.path) (hf : sl1.file = sl.file) (s1 : Scanner)
    (hfiles : s1.files = s.files) (hbatch : s1.batch = s.batch)
    (hpend : pendingSlots s1 = pendingSlots s) (hslots : s1.slots = s.slots.set i sl1) :
    delivered s1 = delivered s := by
  unfold delivered
  rw [hfiles, hbatch, hpend, hslots]
  congr 1
  apply List.filterMap_congr
  intro j _
  exact slotValue_set s.slots i j sl sl1 hi hp hf

theorem step_OrderInv (base : Nat) (l : Label) (s s1 : Scanner) (h : step l s = some s1)
    (hS : ShapeInv s) (hP : PendingInv s) (hO : OrderInv base s) : OrderInv base s1 := by
  cases l with
  | start =>
    obtain ⟨hc, rfl⟩ := step_start h
    obtain ⟨_, _, hq, hr, hb⟩ := hS.1 hc
    have hlen := hO.2.1 hc
    refine ⟨hO.1, ?_, ?_⟩
    · intro hc1
      exact CollectorPC.noConfusion hc1
    · intro _
      refine ⟨?_, Or.inr ⟨s.input, ?_, fun _ => rfl⟩⟩
      · simp [delivered, pendingSlots, hb, hr, hlen, expected]
      · simp [frontPaths, hq, hlen]
  | crawlNext =>
    rcases step_crawlNext h with ⟨hc, rfl⟩ | ⟨p, rest, hc, hcan, rfl⟩ | ⟨p, rest, hc, hcan, rfl⟩
    · refine OrderInv_frame hO rfl rfl Iff.rfl (fun _ => rfl) (fun _ hB => ?_)
      simpa [FlightInv, frontPaths, backPaths, hc] using hB
    · refine OrderInv_frame hO rfl rfl Iff.rfl (fun _ => rfl) (fun _ hB => ?_)
      rcases hB with hB | ⟨tail, h1, _⟩
      · exact Or.inl hB
      · exact Or.inr ⟨tail, by simpa [frontPaths, hc] using h1,
          fun hf => by simp [hcan] at hf⟩
    · refine OrderInv_frame hO rfl rfl Iff.rfl (fun _ => rfl) (fun _ hB => ?_)
      rcases hB with hB | ⟨tail, h1, h2⟩
      · simp [hcan] at hB
      · have ht : tail = p :: rest := by simpa [backPaths, hc] using h2 hcan
        subst ht
        exact Or.inr ⟨rest, by simpa [frontPaths, hc] using h1, fun _ => by simp [backPaths]⟩
  | crawlSend =>
    obtain ⟨p, rest, hc, _, rfl⟩ := step_crawlSend h
    refine OrderInv_frame hO rfl rfl Iff.rfl (fun _ => rfl) (fun _ hB => ?_)
    simpa [FlightInv, frontPaths, backPaths, hc] using hB
  | dispRecv =>
    obtain ⟨hd, ⟨p, q, hq, rfl⟩ | ⟨hq, hcr, rfl⟩⟩ := step_dispRecv h
    · refine OrderInv_frame hO rfl rfl Iff.rfl (fun _ => ?_) (fun _ hB => ?_)
      · simp [delivered, pendingSlots, hd]
      · simpa [FlightInv, frontPaths, backPaths, hd, hq] using hB
    · refine OrderInv_frame hO rfl rfl Iff.rfl (fun _ => ?_) (fun _ hB => ?_)
      · simp [delivered, pendingSlots, hd]
      · rcases hB with hB | ⟨tail, h1, h2⟩
        · simp [hd] at hB
        · exact Or.inr ⟨tail, by simpa [frontPaths, hd] using h1,
            fun hf => by simpa [backPaths] using h2 hf⟩
  | dispAcquire =>
    obtain ⟨p, hd, _, rfl⟩ := step_dispAcquire h
    have hns : s.collector ≠ .notStarted := fun hc => by
      have := (hS.1 hc).2.1
      rw [hd] at this
      cases this
    obtain ⟨hA, hB⟩ := hO.2.2 hns
    have hlt : ∀ j ∈ pendingSlots s, j < s.slots.length := by
      intro j hj
      obtain ⟨sl, h1, _⟩ := hP.2 j hj
      rw [List.getElem?_eq_some_iff] at h1; exact h1.1
    rcases hB with hB | ⟨tail, h1, h2⟩
    · simp [hd] at hB
    · have hfront : frontPaths s = p :: (s.queue ++ (match s.crawler with
          | .sending p _ => [p]
          | _ => [])) := by simp [frontPaths, hd]
      rw [hfront, List.cons_append] at h1
      obtain ⟨ht, hdr⟩ := take_succ_of_drop _ _ _ _ h1
      have hm : s.slots.length + 1 - base = s.slots.length - base + 1 := by
        have := hO.1; omega
      refine ⟨by simp only [List.length_append, List.length_singleton]; have := hO.1; omega,
        fun hc => absurd hc hns, fun _ => ⟨?_, Or.inr ⟨tail, ?_, ?_⟩⟩⟩
      · simp only [List.length_append, List.length_singleton, hm, ht, expected_append, ← hA]
        have hpend : pendingSlots { s with
            tokens := s.tokens - 1,
            slots := s.slots ++ [{ path := p.path, file := p.file, pc := .reading,
                                   buf := none, closed := false }],
            dispatcher := .sendingResult s.slots.length }
            = pendingSlots s ++ [s.slots.length] := by
          simp [pendingSlots, hd]
        unfold delivered
        rw [hpend, List.filterMap_append]
        simp only [List.append_assoc]
        congr 2
        congr 1
        · apply List.filterMap_congr
          intro j hj
          exact slotValue_append_left _ _ j (hlt j hj)
        · simp only [List.filterMap_cons, List.filterMap_nil, slotValue_append_new, expected]
      · simp only [List.length_append, List.length_singleton, hm, hdr]
        simp [frontPaths]
      · intro hf
        simpa [backPaths] using h2 hf
  | dispCancel =>
    obtain ⟨p, hd, hcan, rfl⟩ := step_dispCancel h
    refine OrderInv_frame hO rfl rfl Iff.rfl (fun _ => ?_) (fun _ _ => Or.inl ⟨hcan, Or.inl rfl⟩)
    simp [delivered, pendingSlots, hd]
  | dispDrain =>
    obtain ⟨hd, ⟨p, q, hq, rfl⟩ | ⟨hq, hcr, rfl⟩⟩ := step_dispDrain h
    · exact OrderInv_frame hO rfl rfl Iff.rfl (fun _ => rfl)
        (fun _ _ => Or.inl ⟨hS.2.2.2.1 hd, Or.inl hd⟩)
    · refine OrderInv_frame hO rfl rfl Iff.rfl (fun _ => ?_)
        (fun _ _ => Or.inl ⟨hS.2.2.2.1 hd, Or.inr rfl⟩)
      simp [delivered, pendingSlots, hd]
  | dispSend =>
    obtain ⟨i, hd, _, rfl⟩ := step_dispSend h
    refine OrderInv_frame hO rfl rfl Iff.rfl (fun _ => ?_) (fun _ hB => ?_)
    · simp [delivered, pendingSlots, hd]
    · simpa [FlightInv, frontPaths, backPaths, hd] using hB
  | workRead i =>
    obtain ⟨sl, hsl, hpc, rfl⟩ := step_workRead h
    exact OrderInv_frame hO (List.length_set _ _ _) rfl Iff.rfl
      (fun _ => delivered_set s i sl { sl with pc := .sent, buf := classify sl.path sl.file }
        hsl rfl rfl _ rfl rfl rfl rfl) (fun _ hB => hB)
  | workRelease i =>
    obtain ⟨sl, hsl, hpc, _, rfl⟩ := step_workRelease h
    exact OrderInv_frame hO (List.length_set _ _ _) rfl Iff.rfl
      (fun _ => delivered_set s i sl { sl with pc := .released } hsl rfl rfl _ rfl rfl rfl rfl)
      (fun _ hB => hB)
  | workClose i =>
    obtain ⟨sl, hsl, hpc, rfl⟩ := step_workClose h
    exact OrderInv_frame hO (List.length_set _ _ _) rfl Iff.rfl
      (fun _ => delivered_set s i sl { sl with pc := .exited, closed := true } hsl rfl rfl _
        rfl rfl rfl rfl) (fun _ hB => hB)
  | collRecv =>
    obtain ⟨hc, ⟨i, r, hr, rfl⟩ | ⟨hr, hd, rfl⟩⟩ := step_collRecv h
    · refine OrderInv_frame hO rfl rfl (by simp [hc]) (fun _ => ?_) (fun _ hB => hB)
      simp [delivered, pendingSlots, hc, hr]
    · refine OrderInv_frame hO rfl rfl (by simp [hc]) (fun _ => ?_) (fun _ hB => hB)
      simp [delivered, pendingSlots, hc, hr, hd, ScanModel.Append_eq]
  | collRead =>
    obtain ⟨i, sl, hc, hsl, ⟨file, hb, rfl⟩ | ⟨hb, hcl, rfl⟩⟩ := step_collRead h
    · obtain ⟨sl0, hsl0, hok⟩ := hP.2 i (by simp [pendingSlots, hc])
      rw [hsl] at hsl0
      cases hsl0
      have hval : slotValue s.slots i = some file := by
        unfold slotValue
        rw [hsl]
        have hne : sl.pc ≠ .reading := fun hr => by
          have := hok.1 hr
          rw [hb] at this
          cases this
        show classify sl.path sl.file = some file
        rw [← hok.2.1 hne, hb]
      refine OrderInv_frame hO (List.length_set _ _ _) rfl (by simp [hc]) (fun _ => ?_)
        (fun _ hB => hB)
      have hfm : ∀ l : List Nat,
          l.filterMap (slotValue (s.slots.set i { sl with buf := none }))
            = l.filterMap (slotValue s.slots) := by
        intro l
        apply List.filterMap_congr
        intro j _
        exact slotValue_set s.slots i j sl _ hsl rfl rfl
      simp [delivered, pendingSlots, hc, hfm, hval]
    · obtain ⟨sl0, hsl0, hok⟩ := hP.2 i (by simp [pendingSlots, hc])
      rw [hsl] at hsl0
      cases hsl0
      have hval : slotValue s.slots i = none := by
        unfold slotValue
        rw [hsl]
        have hne : sl.pc ≠ .reading := fun hr => by
          have := hok.2.2.mp hcl
          rw [hr] at this
          cases this
        show classify sl.path sl.file = none
        rw [← hok.2.1 hne, hb]
      refine OrderInv_frame hO rfl rfl (by simp [hc]) (fun _ => ?_) (fun _ hB => hB)
      simp [delivered, pendingSlots, hc, hval]
  | collTick =>
    obtain ⟨hc, rfl⟩ := step_collTick h
    refine OrderInv_frame hO rfl rfl Iff.rfl (fun _ => ?_) (fun _ hB => hB)
    simp [delivered, pendingSlots, hc, ScanModel.Append_eq]
  | cancelCtx =>
    rw [step_cancelCtx h]
    refine OrderInv_frame hO rfl rfl Iff.rfl (fun _ => rfl) (fun _ hB => ?_)
    rcases hB with hB | ⟨tail, h1, _⟩
    · exact Or.inl ⟨rfl, hB.2⟩
    · exact Or.inr ⟨tail, h1, fun hf => by cases hf⟩

/-! ### Whole schedules -/

/-- What no action of a goroutine changes, and what it can only increase. -/
theorem step_frame (l : Label) (s s1 : Scanner) (h : step l s = some s1) :
    s1.input = s.input ∧ s1.cancel = s.cancel ∧ s1.stopped = s.stopped ∧
    (s.cancelled = true → s1.cancelled = true) ∧ s.slots.length ≤ s1.slots.length := by
  cases l <;> simp only [step] at h <;> (repeat' split at h) <;>
    first
    | (cases h; done)
    | (simp only [Option.some.injEq] at h; subst h; simp)

theorem run_frame (ls : List Label) (s s1 : Scanner) (h : run ls s = some s1) :
    s1.input = s.input ∧ s1.cancel = s.cancel ∧ s1.stopped = s.stopped ∧
    (s.cancelled = true → s1.cancelled = true) ∧ s.slots.length ≤ s1.slots.length := by
  induction ls generalizing s with
  | nil => simp only [run, Option.some.injEq] at h; subst h; simp
  | cons l ls ih =>
    simp only [run] at h
    split at h
    · rename_i s2 hs2
      obtain ⟨a1, a2, a3, a4, a5⟩ := step_frame l s s2 hs2
      obtain ⟨b1, b2, b3, b4, b5⟩ := ih s2 h
      exact ⟨by rw [b1, a1], by rw [b2, a2], by rw [b3, a3], fun hc => b4 (a4 hc), by omega⟩
    · cases h

theorem step_RunInv (base : Nat) (l : Label) (s s1 : Scanner) (h : step l s = some s1)
    (hI : RunInv base s) : RunInv base s1 :=
  ⟨step_ShapeInv l s s1 h hI.1, step_PendingInv l s s1 h hI.2.1,
    step_OrderInv base l s s1 h hI.1 hI.2.1 hI.2.2⟩

theorem run_RunInv (base : Nat) (ls : List Label) (s s1 : Scanner) (h : run ls s = some s1)
    (hI : RunInv base s) : RunInv base s1 := by
  induction ls generalizing s with
  | nil => simp only [run, Option.some.injEq] at h; subst h; exact hI
  | cons l ls ih =>
    simp only [run] at h
    split at h
    · rename_i s2 hs2
      exact ih s2 h (step_RunInv base l s s2 hs2 hI)
    · cases h

/-- Right after `Scan` the invariant of the new scan holds, whatever the scanner was. -/
theorem Scan_RunInv (input : List Crawled) (sched : List Label) (s0 s1 : Scanner)
    (hs : Scanner.Scan input sched s0 = some s1) :
    RunInv s1.slots.length s1 ∧ s1.input = input ∧ s1.cancelled = false ∧
    s1.collector = .notStarted ∧ s1.cancel = true ∧ s1.stopped = true := by
  simp only [Scanner.Scan] at hs
  split at hs
  · simp only [Option.some.injEq] at hs
    subst hs
    refine ⟨⟨?_, ?_, ?_⟩, rfl, rfl, rfl, rfl, rfl⟩
    · simp [ShapeInv]
    · simp [PendingInv, pendingSlots]
    · simp [OrderInv]
  · cases hs

/-- When `scan` has returned, the sink holds the files of the paths that got a worker, which
are the first paths of the input; without cancellation these are all the paths. -/
theorem RunInv_done (base : Nat) (s : Scanner) (hI : RunInv base s) (hd : s.collector = .done) :
    s.files = expected (s.input.take (s.slots.length - base)) ∧
    (s.cancelled = false → s.files = expected s.input) := by
  obtain ⟨hS, _, hO⟩ := hI
  obtain ⟨hdd, hr, hb⟩ := hS.2.2.2.2.2 hd
  obtain ⟨hq, hcr⟩ := hS.2.2.2.2.1 hdd
  obtain ⟨hA, hB⟩ := hO.2.2 (by rw [hd]; simp)
  have hdel : delivered s = s.files := by
    simp [delivered, pendingSlots, hd, hr, hb, hdd]
  rw [hdel] at hA
  refine ⟨hA, fun hnc => ?_⟩
  rcases hB with hB | ⟨tail, h1, h2⟩
  · simp [hnc] at hB
  · have ht := h2 hnc
    simp only [backPaths, hcr] at ht
    subst ht
    simp only [frontPaths, hdd, hq, hcr, List.append_nil] at h1
    have : s.input.take (s.slots.length - base) = s.input := by
      have h3 := List.take_append_drop (s.slots.length - base) s.input
      rw [h1, List.append_nil] at h3
      exact h3
    rw [hA, this]

/-- What `Scanner.stop` returns: nothing to stop, a scan that had already returned, or a scan
that was cancelled and waited for. -/
theorem stop_cases {sched : List Label} {s s1 : Scanner} {b : Bool}
    (h : Scanner.stop sched s = some (b, s1)) :
    (s.cancel = false ∧ b = false ∧ s1 = s) ∨
    (s.cancel = true ∧ s.collector = .done ∧ b = false ∧
      s1 = { s with cancel := false, stopped := false }) ∨
    (s.cancel = true ∧ s.collector ≠ .done ∧ b = true ∧
      ∃ s2, run (.cancelCtx :: sched) s = some s2 ∧ s2.collector = .done ∧
        s1 = { s2 with cancel := false, stopped := false }) := by
  unfold Scanner.stop at h
  split_ifs at h with h1 h2
  · simp only [Option.some.injEq, Prod.mk.injEq] at h
    exact Or.inl ⟨h1, h.1.symm, h.2.symm⟩
  · simp only [Option.some.injEq, Prod.mk.injEq] at h
    exact Or.inr (Or.inl ⟨by simpa using h1, h2, h.1.symm, h.2.symm⟩)
  · split at h
    · rename_i s2 hs2
      split_ifs at h with h3
      simp only [Option.some.injEq, Prod.mk.injEq] at h
      exact Or.inr (Or.inr ⟨by simpa using h1, h2, h.1.symm, s2, by simpa [run, step] using hs2,
        h3, h.2.symm⟩)
    · cases h

theorem expected_take_mono (input : List Crawled) {m n : Nat} (h : m ≤ n) :
    expected (input.take m) <+: expected (input.take n) :=
  List.IsPrefix.filterMap _ (List.take_prefix_take_left input h)

/-- C10, amended. When `Stop` is called on a scan, running or not, and returns, the scan has
come to its end and the sink holds the files, in crawl order, of all the paths that got a
worker: the final flush appends the batch, files read after the cancellation included.  So the
sink extends what the sink and the batch held at the cancellation, and everything the
classifications started by then deliver is in it. -/
theorem Stop_keeps_started_results (s0 : Scanner) (input : List Crawled) (sched0 : List Label)
    (s1 : Scanner) (hs : Scanner.Scan input sched0 s0 = some s1) (trace : List Label)
    (s2 : Scanner) (hr : run trace s1 = some s2) (sched : List Label) (b : Bool) (s3 : Scanner)
    (hstop : Scanner.Stop sched s2 = some (b, s3)) :
    s3.collector = .done ∧
    s3.files = expected (input.take (s3.slots.length - s1.slots.length)) ∧
    (s2.collector ≠ .notStarted →
      (s2.files ++ s2.batch) <+: s3.files ∧
      (s2.files ++ s2.batch ++ (pendingSlots s2).filterMap (slotValue s2.slots)) <+: s3.files) := by
  obtain ⟨hI, hin, _, _, hcan, _⟩ := Scan_RunInv input sched0 s0 s1 hs
  have hI2 := run_RunInv _ trace s1 s2 hr hI
  obtain ⟨hin2, hcan2, _, _, hlen2⟩ := run_frame trace s1 s2 hr
  have key : ∀ s4 : Scanner, RunInv s1.slots.length s4 → s4.collector = .done →
      s4.input = input → s2.slots.length ≤ s4.slots.length →
      s4.files = expected (input.take (s4.slots.length - s1.slots.length)) ∧
      (s2.collector ≠ .notStarted →
        (s2.files ++ s2.batch) <+: s4.files ∧ delivered s2 <+: s4.files) := by
    intro s4 hI4 hd4 hin4 hlen4
    have h4 := (RunInv_done _ s4 hI4 hd4).1
    rw [hin4] at h4
    refine ⟨h4, fun hns => ?_⟩
    have hA := (hI2.2.2.2.2 hns).1
    rw [hin2, hin] at hA
    have hpre : delivered s2 <+: s4.files := by
      rw [hA, h4]
      exact expected_take_mono input (by omega)
    exact ⟨(List.prefix_append _ _).trans hpre, hpre⟩
  rcases stop_cases hstop with ⟨hc, _, _⟩ | ⟨_, hd, _, rfl⟩ | ⟨_, _, _, s4, hr4, hd4, rfl⟩
  · rw [hcan2, hcan] at hc
    cases hc
  · obtain ⟨k1, k2⟩ := key s2 hI2 hd (by rw [hin2, hin]) (le_refl _)
    exact ⟨hd, k1, k2⟩
  · have hI4 := run_RunInv _ _ s2 s4 hr4 hI2
    obtain ⟨hin4, _, _, _, hlen4⟩ := run_frame _ s2 s4 hr4
    obtain ⟨k1, k2⟩ := key s4 hI4 hd4 (by rw [hin4, hin2, hin]) hlen4
    exact ⟨hd4, k1, k2⟩

/-- C10, as stated, fails.  At the cancellation the sink is empty and so is the batch; the
collect loop reads the file of the first path after the cancellation, and the final flush
appends it, so `Stop` returns with that file in the sink.  The same happens when the file sits
in the unflushed batch at the cancellation. -/
theorem cancelled_scan_appends_late_results :
    exWaiting.files = [] ∧ exWaiting.batch = [] ∧
    (Scanner.Stop exDrain exWaiting).map (fun r => (r.1, r.2.cancelled, r.2.files))
      = some (true, true, [⟨"C:\\a.dwg", bytes "AC1015"⟩]) ∧
    exBatched.files = [] ∧ exBatched.batch = [⟨"C:\\a.dwg", bytes "AC1015"⟩] ∧
    (Scanner.Stop exDrainBatched exBatched).map (fun r => (r.1, r.2.cancelled, r.2.files))
      = some (true, true, [⟨"C:\\a.dwg", bytes "AC1015"⟩]) := by
  decide

theorem step_collector_done (l : Label) (s s1 : Scanner) (h : step l s = some s1)
    (hd : s.collector = .done) : s1.collector = .done := by
  cases l <;> simp only [step] at h <;> (repeat' split at h) <;>
    first
    | (cases h; done)
    | (simp only [Option.some.injEq] at h; subst h; simp_all)

theorem step_ApiInv (l : Label) (s s1 : Scanner) (h : step l s = some s1) (hA : ApiInv s) :
    ApiInv s1 := by
  obtain ⟨_, h2, h3, _, _⟩ := step_frame l s s1 h
  refine ⟨by rw [h2, h3]; exact hA.1, fun hc => ?_⟩
  rw [h2] at hc
  exact step_collector_done l s s1 h (hA.2 hc)

theorem stop_ApiInv (sched : List Label) (s s1 : Scanner) (b : Bool)
    (h : Scanner.stop sched s = some (b, s1)) (hA : ApiInv s) :
    ApiInv s1 ∧ s1.cancel = false ∧ s1.stopped = false ∧ s1.collector = .done := by
  rcases stop_cases h with ⟨hc, _, rfl⟩ | ⟨_, hd, _, rfl⟩ | ⟨_, _, _, s2, _, hd2, rfl⟩
  · exact ⟨hA, hc, by rw [hA.1]; exact hc, hA.2 hc⟩
  · exact ⟨⟨rfl, fun _ => hd⟩, rfl, rfl, hd⟩
  · exact ⟨⟨rfl, fun _ => hd2⟩, rfl, rfl, hd2⟩

theorem exec_ApiInv (a : Action) (s s1 : Scanner) (h : exec a s = some s1) (hA : ApiInv s) :
    ApiInv s1 := by
  cases a with
  | step l => exact step_ApiInv l s s1 h hA
  | Stop sched =>
    simp only [exec, Scanner.Stop, Option.map_eq_some'] at h
    obtain ⟨⟨b, s2⟩, h2, rfl⟩ := h
    exact (stop_ApiInv sched s s2 b h2 hA).1
  | Scan input sched =>
    simp only [exec, Scanner.Scan] at h
    split at h
    · simp only [Option.some.injEq] at h
      rw [← h]
      exact ⟨rfl, fun hc => by cases hc⟩
    · cases h

theorem execAll_ApiInv (acts : List Action) (s s1 : Scanner) (h : execAll acts s = some s1)
    (hA : ApiInv s) : ApiInv s1 := by
  induction acts generalizing s with
  | nil => simp only [execAll, Option.some.injEq] at h; subst h; exact hA
  | cons a as ih =>
    simp only [execAll] at h
    split at h
    · rename_i s2 hs2
      exact ih s2 h (exec_ApiInv a s s2 hs2 hA)
    · cases h

theorem NewScanner_ApiInv (files : List File) (k : Nat) : ApiInv (NewScanner files k) :=
  ⟨rfl, fun _ => rfl⟩

theorem token_pool_bound_witness :
    exFlushedA.tokens + holders exFlushedA.slots = 1 ∧ readers exFlushedA.slots ≤ 1 :=
  ⟨(token_pool_bound [⟨"C:\\old.dwg", bytes "AC1009"⟩] 1 exActsA exFlushedA (by decide)).1,
   (token_pool_bound [⟨"C:\\old.dwg", bytes "AC1009"⟩] 1 exActsA exFlushedA (by decide)).2.1⟩

theorem Stop_keeps_started_results_witness :
    exStopped.collector = .done ∧
    exStopped.files
      = expected ([exA, exB, exC].take (exStopped.slots.length - exStarted.slots.length)) :=
  ⟨(Stop_keeps_started_results exIdle [exA, exB, exC] [] exStarted (by decide) exTraceWaiting
      exWaiting (by decide) exDrain true exStopped (by decide)).1,
   (Stop_keeps_started_results exIdle [exA, exB, exC] [] exStarted (by decide) exTraceWaiting
      exWaiting (by decide) exDrain true exStopped (by decide)).2.1⟩

/-! ### A root that does not exist -/

theorem harvest_noStat (world : List String → OpenOutcome) (name : String) :
    harvest world (.noStat name) = [] := by
  simp [harvest, crawl, Walk, walkNode, walkFn, FsNode.size]

theorem harvest_empty_dir (world : List String → OpenOutcome) (name : String) :
    harvest world (.dir name false []) = [] := by
  cases h : shouldExclude name <;>
    simp [harvest, crawl, Walk, walkNode, walkFn, walkEntries, FsNode.size, FsNode.sizeList, h]

/-- C9, as stated, fails.  `Scan` on a root that does not exist returns the very scanner it
returns on an empty directory; the scan then runs through its phases, the old content of the
sink is cleared, and it ends like a scan that found nothing. -/
theorem Scan_missing_root_runs :
    exIdle.files ≠ [] ∧
    Scanner.Scan (harvest (fun _ => .fail (.os "not found")) (.noStat "C:\\gone")) [] exIdle
      = Scanner.Scan (harvest (fun _ => .fail (.os "not found")) (.dir "C:\\empty" false []))
          [] exIdle ∧
    ((Scanner.Scan (harvest (fun _ => .fail (.os "not found")) (.noStat "C:\\gone")) []
        exIdle).bind (run [.start, .crawlNext, .dispRecv, .collRecv])).map
      (fun s => (s.files, s.collector)) = some ([], .done) := by
  decide

/-- C9, amended. `Scan` on a root that does not exist surfaces no error: it returns what it
returns for an empty directory, and the scan runs as usual.  Its goroutine clears the sink,
the walk ends without a path, and the scan ends with an empty sink; at no time after the clear
does the sink hold a file. -/
theorem Scan_missing_root (world : List String → OpenOutcome) (name : String)
    (sched : List Label) (s0 s1 : Scanner)
    (hs : Scanner.Scan (harvest world (.noStat name)) sched s0 = some s1) :
    (∀ name1, Scanner.Scan (harvest world (.dir name1 false [])) sched s0 = some s1) ∧
    (∃ s2, run [.start, .crawlNext, .dispRecv, .collRecv] s1 = some s2 ∧
      s2.collector = .done ∧ s2.files = []) ∧
    ∀ trace s2, run trace s1 = some s2 → s2.collector ≠ .notStarted → s2.files = [] := by
  refine ⟨fun name1 => by rw [harvest_empty_dir, ← harvest_noStat world name]; exact hs, ?_, ?_⟩
  · rw [harvest_noStat] at hs
    simp only [Scanner.Scan] at hs
    split at hs
    · simp only [Option.some.injEq] at hs
      subst hs
      simp [run, step, ScanModel.Clear, ScanModel.Append]
    · cases hs
  · intro trace s2 hr hns
    obtain ⟨hI, hin, _⟩ := Scan_RunInv _ sched s0 s1 hs
    have hI2 := run_RunInv _ trace s1 s2 hr hI
    have hin2 := (run_frame trace s1 s2 hr).1
    have hA2 := (hI2.2.2.2.2 hns).1
    rw [hin2, hin, harvest_noStat] at hA2
    simp only [List.take_nil, expected, List.filterMap_nil, delivered, List.append_eq_nil] at hA2
    exact hA2.1.1

theorem Scan_missing_root_witness :
    ∃ s2, run [.start, .crawlNext, .dispRecv, .collRecv]
        ((Scanner.Scan (harvest (fun _ => .fail (.os "not found")) (.noStat "C:\\gone")) []
          exIdle).getD exIdle) = some s2 ∧
      s2.collector = .done ∧ s2.files = [] :=
  (Scan_missing_root (fun _ => .fail (.os "not found")) "C:\\gone" [] exIdle _ (by decide)).2.1

theorem classify_path (path : String) (o : OpenOutcome) (f : File)
    (h : classify path o = some f) : f.Path = path := by
  unfold classify at h
  split at h
  · simp only [Option.some.injEq] at h
    rw [← h]
  · cases h

/-- In a scan of the tree `root`, every file that is in the sink once the scan has cleared it
belongs to a path of the walk, and no directory from the scan root down to that file has an
excluded name. -/
theorem sink_paths_clean (world : List String → OpenOutcome) (root : FsNode) (sched : List Label)
    (s0 s1 : Scanner) (hs : Scanner.Scan (harvest world root) sched s0 = some s1)
    (trace : List Label) (s2 : Scanner) (hr : run trace s1 = some s2)
    (hns : s2.collector ≠ .notStarted) :
    ∀ f ∈ s2.files, ∃ q ∈ crawl root.size root, f.Path = Join q ∧
      ∀ n ∈ q.dropLast, shouldExclude n = false := by
  intro f hf
  obtain ⟨hI, hin, _⟩ := Scan_RunInv _ sched s0 s1 hs
  have hI2 := run_RunInv _ trace s1 s2 hr hI
  have hin2 := (run_frame trace s1 s2 hr).1
  have hA2 := (hI2.2.2.2.2 hns).1
  rw [hin2, hin] at hA2
  have hf2 : f ∈ delivered s2 := by
    unfold delivered
    simp only [List.mem_append]
    exact Or.inl (Or.inl hf)
  rw [hA2] at hf2
  simp only [expected, List.mem_filterMap] at hf2
  obtain ⟨p, hp, hc⟩ := hf2
  have hp2 : p ∈ harvest world root := List.mem_of_mem_take hp
  simp only [harvest, List.mem_map] at hp2
  obtain ⟨q, hq, rfl⟩ := hp2
  exact ⟨q, hq, classify_path _ _ f hc, walkNode_clean ⟨root.size, []⟩ [] (by simp) (by simp)
    root q hq⟩


theorem workLeft_set (l : List Slot) (i : Nat) (x y : Slot) (h : l[i]? = some y) :
    workLeft (l.set i x) + y.pc.left = workLeft l + x.pc.left := by
  unfold workLeft
  induction l generalizing i with
  | nil => simp at h
  | cons a as ih =>
    cases i with
    | zero =>
      simp only [List.getElem?_cons_zero, Option.some.injEq] at h
      subst h
      simp only [List.set_cons_zero, List.map_cons, List.sum_cons]
      omega
    | succ i =>
      simp only [List.getElem?_cons_succ] at h
      have := ih i h
      simp only [List.set_cons_succ, List.map_cons, List.sum_cons]
      omega

/-- Every action other than a tick or the cancellation lowers the measure. -/
theorem step_measure (l : Label) (s s1 : Scanner) (h : step l s = some s1)
    (hS : ShapeInv s) (h1 : l ≠ .collTick) (h2 : l ≠ .cancelCtx) : measure s1 < measure s := by
  cases l with
  | start =>
    obtain ⟨hc, rfl⟩ := step_start h
    obtain ⟨hcr, hd, _⟩ := hS.1 hc
    simp only [measure, hc, hcr, hd]
    omega
  | crawlNext =>
    rcases step_crawlNext h with
      ⟨hc, rfl⟩ | ⟨p, rest, hc, hcan, rfl⟩ | ⟨p, rest, hc, hcan, rfl⟩ <;>
      (simp only [measure, hc, List.length_append, List.length_cons, List.length_nil,
        List.length_singleton]; omega)
  | crawlSend =>
    obtain ⟨p, rest, hc, _, rfl⟩ := step_crawlSend h
    simp only [measure, hc, List.length_append, List.length_cons, List.length_nil,
      List.length_singleton]
    omega
  | dispRecv =>
    obtain ⟨hd, ⟨p, q, hq, rfl⟩ | ⟨hq, hcr, rfl⟩⟩ := step_dispRecv h <;>
      (simp only [measure, hd, hq, List.length_append, List.length_cons, List.length_nil,
        List.length_singleton]; omega)
  | dispAcquire =>
    obtain ⟨p, hd, _, rfl⟩ := step_dispAcquire h
    simp only [measure, hd, workLeft, WorkerPC.left, List.map_append, List.map_cons, List.map_nil,
      List.sum_append, List.sum_cons, List.sum_nil]
    omega
  | dispCancel =>
    obtain ⟨p, hd, hcan, rfl⟩ := step_dispCancel h
    simp only [measure, hd, List.length_append, List.length_cons, List.length_nil,
      List.length_singleton]
    omega
  | dispDrain =>
    obtain ⟨hd, ⟨p, q, hq, rfl⟩ | ⟨hq, hcr, rfl⟩⟩ := step_dispDrain h <;>
      (simp only [measure, hd, hq, List.length_append, List.length_cons, List.length_nil,
        List.length_singleton]; omega)
  | dispSend =>
    obtain ⟨i, hd, _, rfl⟩ := step_dispSend h
    simp only [measure, hd, List.length_append, List.length_cons, List.length_nil,
      List.length_singleton]
    omega
  | workRead i =>
    obtain ⟨sl, hsl, hpc, rfl⟩ := step_workRead h
    have := workLeft_set s.slots i { sl with pc := .sent, buf := classify sl.path sl.file } sl hsl
    simp only [hpc, WorkerPC.left] at this
    simp only [measure]
    omega
  | workRelease i =>
    obtain ⟨sl, hsl, hpc, _, rfl⟩ := step_workRelease h
    have := workLeft_set s.slots i { sl with pc := .released } sl hsl
    simp only [hpc, WorkerPC.left] at this
    simp only [measure]
    omega
  | workClose i =>
    obtain ⟨sl, hsl, hpc, rfl⟩ := step_workClose h
    have := workLeft_set s.slots i { sl with pc := .exited, closed := true } sl hsl
    simp only [hpc, WorkerPC.left] at this
    simp only [measure]
    omega
  | collRecv =>
    obtain ⟨hc, ⟨i, r, hr, rfl⟩ | ⟨hr, hd, rfl⟩⟩ := step_collRecv h <;>
      (simp only [measure, hc, hr, List.length_append, List.length_cons, List.length_nil,
        List.length_singleton]; omega)
  | collRead =>
    obtain ⟨i, sl, hc, hsl, ⟨file, hb, rfl⟩ | ⟨hb, hcl, rfl⟩⟩ := step_collRead h
    · have := workLeft_set s.slots i { sl with buf := none } sl hsl
      simp only at this
      simp only [measure, hc]
      omega
    · simp only [measure, hc]
      omega
  | collTick => exact absurd rfl h1
  | cancelCtx => exact absurd rfl h2

theorem holderLabel_spec (slots : List Slot) (off : Nat) (h : 0 < holders slots) :
    ∃ j sl, slots[j]? = some sl ∧
      ((sl.pc = .reading ∧ holderLabel slots off = some (.workRead (off + j))) ∨
       (sl.pc = .sent ∧ holderLabel slots off = some (.workRelease (off + j)))) := by
  induction slots generalizing off with
  | nil => simp [holders] at h
  | cons sl rest ih =>
    cases hpc : sl.pc with
    | reading => exact ⟨0, sl, by simp, Or.inl ⟨hpc, by simp [holderLabel, hpc]⟩⟩
    | sent => exact ⟨0, sl, by simp, Or.inr ⟨hpc, by simp [holderLabel, hpc]⟩⟩
    | released =>
      have h' : 0 < holders rest := by
        simpa [holders, List.countP_cons, Slot.holdsToken, hpc] using h
      obtain ⟨j, slj, hj, hr⟩ := ih (off + 1) h'
      refine ⟨j + 1, slj, by simpa using hj, ?_⟩
      have e : off + (j + 1) = off + 1 + j := by omega
      simpa [holderLabel, hpc, e] using hr
    | exited =>
      have h' : 0 < holders rest := by
        simpa [holders, List.countP_cons, Slot.holdsToken, hpc] using h
      obtain ⟨j, slj, hj, hr⟩ := ih (off + 1) h'
      refine ⟨j + 1, slj, by simpa using hj, ?_⟩
      have e : off + (j + 1) = off + 1 + j := by omega
      simpa [holderLabel, hpc, e] using hr

theorem holders_pos_of_mem (slots : List Slot) (i : Nat) (sl : Slot) (h : slots[i]? = some sl)
    (hh : sl.holdsToken = true) : 0 < holders slots := by
  unfold holders
  rw [List.countP_pos_iff]
  exact ⟨sl, List.getElem?_mem h, hh⟩

/-- As long as the scan has not ended, and it is cancelled or the pool has a token at all,
the action the scheduler picks is enabled, and it is neither a tick nor the cancellation. -/
theorem nextLabel_enabled (s : Scanner) (hL : LiveInv s) (hnd : s.collector ≠ .done)
    (hgo : s.cancelled = true ∨ 0 < s.workers) :
    (step (nextLabel s) s).isSome = true ∧ nextLabel s ≠ .collTick ∧
      nextLabel s ≠ .cancelCtx := by
  obtain ⟨hT, hS, hP⟩ := hL
  cases hc : s.collector with
  | done => exact absurd hc hnd
  | notStarted => simp [nextLabel, hc, step]
  | waiting i =>
    obtain ⟨sl, hsl, hok⟩ := hP.2 i (by simp [pendingSlots, hc])
    cases hb : sl.buf with
    | some f => simp [nextLabel, hc, hsl, hb, step]
    | none =>
      cases hcl : sl.closed with
      | true => simp [nextLabel, hc, hsl, hb, hcl, step]
      | false =>
        cases hpc : sl.pc with
        | reading => simp [nextLabel, hc, hsl, hb, hcl, hpc, step]
        | sent =>
          have hpos := holders_pos_of_mem s.slots i sl hsl (by simp [Slot.holdsToken, hpc])
          have hlt : s.tokens < s.workers := by unfold TokInv at hT; omega
          simp [nextLabel, hc, hsl, hb, hcl, hpc, step, hlt]
        | released => simp [nextLabel, hc, hsl, hb, hcl, hpc, step]
        | exited =>
          have := hok.2.2.mpr hpc
          rw [hcl] at this
          cases this
  | selecting =>
    cases hr : s.results with
    | cons i r => simp [nextLabel, hc, hr, step]
    | nil =>
      cases hd : s.dispatcher with
      | notStarted =>
        have := hS.2.2.1 hd
        rw [hc] at this
        cases this
      | done => simp [nextLabel, hc, hr, hd, step]
      | sendingResult i => simp [nextLabel, hc, hr, hd, step, resultsCap]
      | selecting p =>
        cases hcan : s.cancelled with
        | true => simp [nextLabel, hc, hr, hd, hcan, step]
        | false =>
          by_cases htok : 0 < s.tokens
          · simp [nextLabel, hc, hr, hd, hcan, htok, step]
          · have hw : 0 < s.workers := by
              rcases hgo with hgo | hgo
              · rw [hcan] at hgo; cases hgo
              · exact hgo
            have hpos : 0 < holders s.slots := by unfold TokInv at hT; omega
            have hlt : s.tokens < s.workers := by omega
            obtain ⟨j, slj, hj, ⟨hpc, hl⟩ | ⟨hpc, hl⟩⟩ := holderLabel_spec s.slots 0 hpos
            · simp [nextLabel, hc, hr, hd, hcan, htok, hl, step, hj, hpc]
            · simp [nextLabel, hc, hr, hd, hcan, htok, hl, step, hj, hpc, hlt]
      | receiving =>
        cases hq : s.queue with
        | cons p q => simp [nextLabel, hc, hr, hd, hq, step]
        | nil =>
          cases hcr : s.crawler with
          | notStarted =>
            have := hS.2.1 hcr
            rw [hc] at this
            cases this
          | walking rest =>
            cases rest <;> cases hcan : s.cancelled <;>
              simp [nextLabel, hc, hr, hd, hq, hcr, step, hcan]
          | sending p rest => simp [nextLabel, hc, hr, hd, hq, hcr, step, queueCap]
          | done => simp [nextLabel, hc, hr, hd, hq, hcr, step]
      | draining =>
        cases hq : s.queue with
        | cons p q => simp [nextLabel, hc, hr, hd, hq, step]
        | nil =>
          cases hcr : s.crawler with
          | notStarted =>
            have := hS.2.1 hcr
            rw [hc] at this
            cases this
          | walking rest =>
            cases rest <;> cases hcan : s.cancelled <;>
              simp [nextLabel, hc, hr, hd, hq, hcr, step, hcan]
          | sending p rest => simp [nextLabel, hc, hr, hd, hq, hcr, step, queueCap]
          | done => simp [nextLabel, hc, hr, hd, hq, hcr, step]

theorem step_cancelled (l : Label) (s s1 : Scanner) (h : step l s = some s1)
    (hl : l ≠ .cancelCtx) : s1.cancelled = s.cancelled := by
  cases l <;> simp only [step] at h <;> (repeat' split at h) <;>
    first
    | (cases h; done)
    | exact absurd rfl hl
    | (simp only [Option.some.injEq] at h; subst h; rfl)

theorem step_LiveInv (l : Label) (s s1 : Scanner) (h : step l s = some s1) (hL : LiveInv s) :
    LiveInv s1 :=
  ⟨step_TokInv l s s1 h hL.1, step_ShapeInv l s s1 h hL.2.1, step_PendingInv l s s1 h hL.2.2⟩

theorem run_LiveInv (ls : List Label) (s s1 : Scanner) (h : run ls s = some s1)
    (hL : LiveInv s) : LiveInv s1 := by
  induction ls generalizing s with
  | nil => simp only [run, Option.some.injEq] at h; subst h; exact hL
  | cons l ls ih =>
    simp only [run] at h
    split at h
    · rename_i s2 hs2
      exact ih s2 h (step_LiveInv l s s2 hs2 hL)
    · cases h

theorem measure_pos (s : Scanner) (h : s.collector ≠ .done) : 0 < measure s := by
  unfold measure
  cases hc : s.collector with
  | done => exact absurd hc h
  | notStarted => simp only; omega
  | selecting => simp only; omega
  | waiting i => simp only; omega

/-- The scheduler brings every scan to its end, provided the scan is cancelled or the pool
has a token at all; it never cancels. -/
theorem schedule_ends (n : Nat) : ∀ s : Scanner, measure s ≤ n → LiveInv s →
    (s.cancelled = true ∨ 0 < s.workers) →
    ∃ s1, run (schedule n s) s = some s1 ∧ s1.collector = .done ∧
      s1.cancelled = s.cancelled := by
  induction n with
  | zero =>
    intro s hm _ _
    have hd : s.collector = .done := by
      by_contra hnd
      have := measure_pos s hnd
      omega
    exact ⟨s, by simp [schedule, run], hd, rfl⟩
  | succ n ih =>
    intro s hm hL hgo
    by_cases hd : s.collector = .done
    · exact ⟨s, by simp [schedule, hd, run], hd, rfl⟩
    · obtain ⟨hen, hl1, hl2⟩ := nextLabel_enabled s hL hd hgo
      obtain ⟨s2, hs2⟩ := Option.isSome_iff_exists.mp hen
      have hlt := step_measure _ s s2 hs2 hL.2.1 hl1 hl2
      have hcan := step_cancelled _ s s2 hs2 hl2
      have hw := step_workers _ s s2 hs2
      obtain ⟨s1, hr, hd1, hc1⟩ := ih s2 (by omega) (step_LiveInv _ s s2 hs2 hL)
        (by rw [hcan, hw]; exact hgo)
      refine ⟨s1, ?_, hd1, by rw [hc1, hcan]⟩
      simp only [schedule, hd, if_false, hs2, run]
      exact hr

theorem stop_LiveInv (sched : List Label) (s s1 : Scanner) (b : Bool)
    (h : Scanner.stop sched s = some (b, s1)) (hL : LiveInv s) : LiveInv s1 := by
  rcases stop_cases h with ⟨_, _, rfl⟩ | ⟨_, _, _, rfl⟩ | ⟨_, _, _, s2, hr, _, rfl⟩
  · exact hL
  · exact hL
  · exact run_LiveInv _ s s2 hr hL

theorem exec_LiveInv (a : Action) (s s1 : Scanner) (h : exec a s = some s1) (hL : LiveInv s) :
    LiveInv s1 := by
  cases a with
  | step l => exact step_LiveInv l s s1 h hL
  | Stop sched =>
    simp only [exec, Scanner.Stop, Option.map_eq_some'] at h
    obtain ⟨⟨b, s2⟩, h2, rfl⟩ := h
    exact stop_LiveInv sched s s2 b h2 hL
  | Scan input sched =>
    have hI := (Scan_RunInv input sched s s1 h).1
    simp only [exec, Scanner.Scan] at h
    split at h
    · rename_i b s2 hs2
      simp only [Option.some.injEq] at h
      have hT := (stop_LiveInv sched s s2 b hs2 hL).1
      refine ⟨?_, hI.1, hI.2.1⟩
      rw [← h]
      exact hT
    · cases h

theorem execAll_LiveInv (acts : List Action) (s s1 : Scanner) (h : execAll acts s = some s1)
    (hL : LiveInv s) : LiveInv s1 := by
  induction acts generalizing s with
  | nil => simp only [execAll, Option.some.injEq] at h; subst h; exact hL
  | cons a as ih =>
    simp only [execAll] at h
    split at h
    · rename_i s2 hs2
      exact ih s2 h (exec_LiveInv a s s2 hs2 hL)
    · cases h

theorem NewScanner_LiveInv (files : List File) (k : Nat) : LiveInv (NewScanner files k) := by
  refine ⟨?_, ?_, ?_⟩
  · simp [TokInv, NewScanner, holders]
  · simp [ShapeInv, NewScanner]
  · simp [PendingInv, pendingSlots, NewScanner]

/-- A call of `stop` can always return: on a scan that still runs, the scheduler brings the
cancelled scan to its end. -/
theorem stop_returns (s : Scanner) (hL : LiveInv s) :
    ∃ sched b s1, Scanner.stop sched s = some (b, s1) := by
  by_cases hc : s.cancel = false
  · exact ⟨[], false, s, by simp [Scanner.stop, hc]⟩
  · by_cases hd : s.collector = .done
    · exact ⟨[], false, { s with cancel := false, stopped := false },
        by simp [Scanner.stop, hc, hd]⟩
    · have hL1 : LiveInv { s with cancelled := true } := step_LiveInv .cancelCtx s _ rfl hL
      obtain ⟨s1, hr, hd1, _⟩ := schedule_ends (measure { s with cancelled := true })
        { s with cancelled := true } (le_refl _) hL1 (Or.inl rfl)
      refine ⟨schedule (measure { s with cancelled := true }) { s with cancelled := true },
        true, { s1 with cancel := false, stopped := false }, ?_⟩
      unfold Scanner.stop
      rw [if_neg hc, if_neg hd]
      simp only [hr, hd1, if_true]

/-- C3. On a scanner in any state it can reach: `Stop` on an idle scanner (`cancel` nil)
returns false whatever the schedule and leaves the scanner as it is, so a second call returns
false again; `Stop` on a scanner whose scan has ended on its own returns false; `Stop` on a
scanner whose scan still runs returns under some schedule (the cancelled scan can always be
brought to its end), and whenever it returns it returns true; and after every return of `Stop`
the fields `cancel` and `stopped` are nil, so that `Stop` called again returns false and
changes nothing. -/
theorem Stop_idempotent (files : List File) (k : Nat) (acts : List Action) (s : Scanner)
    (h : execAll acts (NewScanner files k) = some s) :
    (s.cancel = false → s.stopped = false ∧ ∀ sched, Scanner.Stop sched s = some (false, s)) ∧
    (s.cancel = true → s.collector = .done →
      ∀ sched, Scanner.Stop sched s = some (false, { s with cancel := false, stopped := false })) ∧
    (s.cancel = true → s.collector ≠ .done →
      (∃ sched s1, Scanner.Stop sched s = some (true, s1)) ∧
      ∀ sched b s1, Scanner.Stop sched s = some (b, s1) → b = true) ∧
    (∀ sched b s1, Scanner.Stop sched s = some (b, s1) →
      s1.cancel = false ∧ s1.stopped = false ∧
      ∀ sched2, Scanner.Stop sched2 s1 = some (false, s1)) := by
  have hL := execAll_LiveInv acts _ s h (NewScanner_LiveInv files k)
  have hA := execAll_ApiInv acts _ s h (NewScanner_ApiInv files k)
  refine ⟨fun hc => ⟨by rw [hA.1]; exact hc, fun sched => by simp [Scanner.Stop, Scanner.stop, hc]⟩,
    fun hc hd sched => by simp [Scanner.Stop, Scanner.stop, hc, hd], fun hc hnd => ⟨?_, ?_⟩, ?_⟩
  · obtain ⟨sched, b, s1, hs⟩ := stop_returns s hL
    rcases stop_cases hs with ⟨hc0, _, _⟩ | ⟨_, hd, _, _⟩ | ⟨_, _, hb, _⟩
    · rw [hc] at hc0; cases hc0
    · exact absurd hd hnd
    · subst hb
      exact ⟨sched, s1, hs⟩
  · intro sched b s1 hs
    rcases stop_cases hs with ⟨hc0, _, _⟩ | ⟨_, hd, _, _⟩ | ⟨_, _, hb, _⟩
    · rw [hc] at hc0; cases hc0
    · exact absurd hd hnd
    · exact hb
  · intro sched b s1 hs
    obtain ⟨_, h1, h2, _⟩ := stop_ApiInv sched s s1 b hs hA
    exact ⟨h1, h2, fun sched2 => by simp [Scanner.Stop, Scanner.stop, h1]⟩

/-- C1. After `Scan` on any scanner, whatever its sink held, every schedule of the goroutines
(any order in which workers finish, any placement of the flush ticks, any blocking on the
channels) that brings the scan to its end without cancellation leaves the sink equal to the
files of the paths whose classification succeeded, in crawl order, none lost or repeated.
Such a schedule exists whenever the scanner was built with at least one worker. -/
theorem scan_complete_in_order (s0 : Scanner) (input : List Crawled) (sched : List Label)
    (s1 : Scanner) (hs : Scanner.Scan input sched s0 = some s1) :
    (∀ (trace : List Label) (s2 : Scanner), run trace s1 = some s2 → s2.collector = .done →
      s2.cancelled = false → s2.files = input.filterMap (fun p => classify p.path p.file)) ∧
    (∀ (files : List File) (k : Nat) (acts : List Action), 0 < k →
      execAll acts (NewScanner files k) = some s0 →
      ∃ trace s2, run trace s1 = some s2 ∧ s2.collector = .done ∧ s2.cancelled = false) := by
  obtain ⟨hI, hin, hnc1, _⟩ := Scan_RunInv input sched s0 s1 hs
  constructor
  · intro trace s2 hr hdone hnc
    have hI2 := run_RunInv _ trace s1 s2 hr hI
    have hin2 := (run_frame trace s1 s2 hr).1
    have := (RunInv_done _ s2 hI2 hdone).2 hnc
    rw [this, hin2, hin]
    rfl
  · intro files k acts hk h0
    have hL0 := execAll_LiveInv acts _ s0 h0 (NewScanner_LiveInv files k)
    have hw0 : s0.workers = k :=
      (execAll_TokInv acts _ s0 h0 (NewScanner_LiveInv files k).1).2
    have hL1 : LiveInv s1 := exec_LiveInv (.Scan input sched) s0 s1 hs hL0
    have hw1 : s1.workers = s0.workers := (exec_TokInv (.Scan input sched) s0 s1 hs hL0.1).2
    obtain ⟨s2, hr, hd, hc⟩ := schedule_ends (measure s1) s1 (le_refl _) hL1
      (Or.inr (by rw [hw1, hw0]; exact hk))
    exact ⟨_, s2, hr, hd, by rw [hc, hnc1]⟩

theorem scan_complete_in_order_witness :
    exFinished.files = [exA, exB, exC].filterMap (fun p => classify p.path p.file) :=
  (scan_complete_in_order exIdle [exA, exB, exC] [] exStarted (by decide)).1 exTrace exFinished
    (by decide) (by decide) (by decide)

theorem Stop_idempotent_witness :
    Scanner.Stop [] exIdle = some (false, exIdle) ∧
    ∃ sched s1, Scanner.Stop sched exFlushedA = some (true, s1) :=
  ⟨((Stop_idempotent [⟨"C:\\old.dwg", bytes "AC1009"⟩] 1 [] exIdle (by decide)).1
      (by decide)).2 [],
   ((Stop_idempotent [⟨"C:\\old.dwg", bytes "AC1009"⟩] 1 exActsA exFlushedA (by decide)).2.2.1
      (by decide) (by decide)).1⟩

/-- C7. On a scanner in any state it can reach, with any content of the sink, a call of `Scan`
can return, and when it returns it has first brought the previous scan to its end (cancelling
it when it was still running).  From then on, while the new scan has not cleared the sink its
walk has not started and `queue` is empty; once it has, the sink holds only files of the new
scan, in order; and when the new scan ends without cancellation the sink is exactly the new
scan's result. -/
theorem Scan_restart_clears (files : List File) (k : Nat) (acts : List Action) (sA : Scanner)
    (hA : execAll acts (NewScanner files k) = some sA) (inputB : List Crawled) :
    (∃ sched s1, Scanner.Scan inputB sched sA = some s1) ∧
    ∀ sched s1, Scanner.Scan inputB sched sA = some s1 →
      (∃ b s0, Scanner.stop sched sA = some (b, s0) ∧ s0.collector = .done ∧
        (sA.collector ≠ .done → b = true ∧ s0.cancelled = true) ∧ s1.files = s0.files) ∧
      ∀ trace s2, run trace s1 = some s2 →
        (s2.collector = .notStarted → s2.crawler = .notStarted ∧ s2.queue = []) ∧
        (s2.collector ≠ .notStarted → s2.files <+: expected inputB) ∧
        (s2.collector = .done → s2.cancelled = false → s2.files = expected inputB) := by
  have hApi := execAll_ApiInv acts _ sA hA (NewScanner_ApiInv files k)
  have hL := execAll_LiveInv acts _ sA hA (NewScanner_LiveInv files k)
  constructor
  · obtain ⟨sched, b, s0, hs0⟩ := stop_returns sA hL
    refine ⟨sched, ?_⟩
    simp only [Scanner.Scan, hs0]
    exact ⟨_, rfl⟩
  intro sched s1 hs
  constructor
  · have hs' := hs
    simp only [Scanner.Scan] at hs'
    split at hs'
    · rename_i b s0 hs0
      simp only [Option.some.injEq] at hs'
      obtain ⟨_, _, _, hd⟩ := stop_ApiInv sched sA s0 b hs0 hApi
      refine ⟨b, s0, hs0, hd, fun hnd => ?_, by rw [← hs']⟩
      rcases stop_cases hs0 with ⟨hc, _, _⟩ | ⟨_, hd0, _, _⟩ | ⟨_, _, hb, s2, hr2, _, rfl⟩
      · exact absurd (hApi.2 hc) hnd
      · exact absurd hd0 hnd
      · refine ⟨hb, ?_⟩
        simp only [run, step] at hr2
        exact (run_frame sched _ s2 hr2).2.2.2.1 rfl
    · cases hs'
  · intro trace s2 hr
    obtain ⟨hI, hin, _⟩ := Scan_RunInv inputB sched sA s1 hs
    have hI2 := run_RunInv _ trace s1 s2 hr hI
    have hin2 := (run_frame trace s1 s2 hr).1
    refine ⟨fun hc => ⟨(hI2.1.1 hc).1, (hI2.1.1 hc).2.2.1⟩, fun hns => ?_, fun hd hnc => ?_⟩
    · have hA2 := (hI2.2.2.2.2 hns).1
      rw [hin2, hin] at hA2
      have h1 : s2.files <+: delivered s2 := by
        unfold delivered
        rw [List.append_assoc]
        exact List.prefix_append _ _
      have h2 : expected (inputB.take (s2.slots.length - s1.slots.length)) <+: expected inputB :=
        List.IsPrefix.filterMap _ (List.take_prefix _ _)
      rw [hA2] at h1
      exact h1.trans h2
    · have := (RunInv_done _ s2 hI2 hd).2 hnc
      rw [this, hin2, hin]

theorem Scan_restart_clears_witness :
    exFlushedA.files = [⟨"C:\\a.dwg", bytes "AC1015"⟩] ∧ exFlushedA.collector = .selecting ∧
    exFinishedB.files = expected [exC] :=
  ⟨by decide, by decide,
    (((Scan_restart_clears [⟨"C:\\old.dwg", bytes "AC1009"⟩] 1 exActsA exFlushedA (by decide)
      [exC]).2 exDrainBatched exRestarted (by decide)).2 exTraceB exFinishedB (by decide)).2.2
      (by decide) (by decide)⟩

theorem walkFn_grows (s : CrawlState) (path : List String) (info : Option FileInfo)
    (err : Bool) : s.queue <+: (walkFn s path info err).1.queue := by
  rcases walkFn_queue s path info err with h | ⟨h, _⟩
  · rw [h]
  · rw [h]; exact List.prefix_append _ _

mutual
/-- A walk only appends to the queue. -/
theorem walkNode_grows (s : CrawlState) (path : List String) :
    ∀ node : FsNode, s.queue <+: (walkNode s path node).1.queue
  | .noStat name => by rw [walkNode]; exact walkFn_grows _ _ _ _
  | .file name => by rw [walkNode]; exact walkFn_grows _ _ _ _
  | .dir name readErr entries => by
    rw [walkNode]
    have h1 := walkFn_grows s (path ++ [name]) (some { Name := name, IsDir := true }) readErr
    rcases hw : walkFn s (path ++ [name]) (some { Name := name, IsDir := true }) readErr
      with ⟨s1, err1⟩
    rw [hw] at h1
    simp only
    split_ifs
    · exact h1
    · exact h1.trans (walkEntries_grows s1 (path ++ [name]) entries)

/-- A walk over the entries of a directory only appends to the queue. -/
theorem walkEntries_grows (s : CrawlState) (path : List String) :
    ∀ entries : List FsNode, s.queue <+: (walkEntries s path entries).1.queue
  | [] => by rw [walkEntries]
  | e :: rest => by
    rw [walkEntries]
    have h1 := walkNode_grows s path e
    rcases hw : walkNode s path e with ⟨s1, _ | err⟩
    · rw [hw] at h1
      exact h1.trans (walkEntries_grows s1 path rest)
    · rw [hw] at h1
      simp only
      cases e with
      | noStat name =>
        simp only
        split_ifs
        · exact h1
        · exact h1.trans (walkEntries_grows s1 path rest)
      | file name =>
        simp only
        split_ifs
        · exact h1
        · exact h1.trans (walkEntries_grows s1 path rest)
      | dir name readErr entries =>
        simp only
        split_ifs
        · exact h1
        · exact h1.trans (walkEntries_grows s1 path rest)
end

theorem walkFn_sim (s s1 : CrawlState) (hq : s.queue = s1.queue) (hb : s.budget ≤ s1.budget)
    (path : List String) (info : Option FileInfo) (err : Bool) :
    WalkSim (walkFn s path info err) (walkFn s1 path info err) := by
  by_cases h0 : s.budget = 0
  · have : walkFn s path info err = (s, some WalkErr.Canceled) := by simp [walkFn, h0]
    rw [this]
    exact ⟨by simp only; rw [hq]; exact walkFn_grows _ _ _ _, Or.inl rfl⟩
  · have h1 : s1.budget ≠ 0 := by omega
    have hle : s.budget - 1 ≤ s1.budget - 1 := by omega
    rcases info with _ | info
    · simp [walkFn, h0, h1, WalkSim, hq, hle]
    · cases err
      · cases hD : info.IsDir
        · cases hF : isDrawingFile info.Name <;> simp [walkFn, h0, h1, WalkSim, hq, hle, hD, hF]
        · cases hE : shouldExclude info.Name <;> simp [walkFn, h0, h1, WalkSim, hq, hle, hD, hE]
      · simp [walkFn, h0, h1, WalkSim, hq, hle]

mutual
/-- The walk of an entry under two budgets. -/
theorem walkNode_sim (s s1 : CrawlState) (hq : s.queue = s1.queue) (hb : s.budget ≤ s1.budget)
    (path : List String) : ∀ node : FsNode, WalkSim (walkNode s path node) (walkNode s1 path node)
  | .noStat name => by rw [walkNode, walkNode]; exact walkFn_sim s s1 hq hb _ _ _
  | .file name => by rw [walkNode, walkNode]; exact walkFn_sim s s1 hq hb _ _ _
  | .dir name readErr entries => by
    rw [walkNode, walkNode]
    have h1 := walkFn_sim s s1 hq hb (path ++ [name]) (some { Name := name, IsDir := true })
      readErr
    rcases hw : walkFn s (path ++ [name]) (some { Name := name, IsDir := true }) readErr
      with ⟨t, err⟩
    rcases hw1 : walkFn s1 (path ++ [name]) (some { Name := name, IsDir := true }) readErr
      with ⟨t1, err1⟩
    rw [hw, hw1] at h1
    obtain ⟨hpre, hcase⟩ := h1
    simp only at hpre hcase ⊢
    rcases hcase with hcan | ⟨he, hq2, hb2⟩
    · subst hcan
      simp only [Option.isSome_some, Bool.or_true, if_true]
      refine ⟨?_, Or.inl rfl⟩
      split_ifs
      · exact hpre
      · exact hpre.trans (walkEntries_grows t1 (path ++ [name]) entries)
    · subst he
      split_ifs with hc
      · exact ⟨hpre, Or.inr ⟨rfl, hq2, hb2⟩⟩
      · exact walkEntries_sim t t1 hq2 hb2 (path ++ [name]) entries

/-- The walk of the entries of a directory under two budgets. -/
theorem walkEntries_sim (s s1 : CrawlState) (hq : s.queue = s1.queue)
    (hb : s.budget ≤ s1.budget) (path : List String) :
    ∀ entries : List FsNode, WalkSim (walkEntries s path entries) (walkEntries s1 path entries)
  | [] => by
    rw [walkEntries, walkEntries]
    exact ⟨by rw [hq], Or.inr ⟨rfl, hq, hb⟩⟩
  | e :: rest => by
    rw [walkEntries, walkEntries]
    have h1 := walkNode_sim s s1 hq hb path e
    rcases hw : walkNode s path e with ⟨t, err⟩
    rcases hw1 : walkNode s1 path e with ⟨t1, err1⟩
    rw [hw, hw1] at h1
    obtain ⟨hpre, hcase⟩ := h1
    simp only at hpre hcase
    have hrest : t1.queue <+: (walkEntries t1 path rest).1.queue :=
      walkEntries_grows t1 path rest
    rcases hcase with hcan | ⟨he, hq2, hb2⟩
    · subst hcan
      have hfin : ∀ r1 : CrawlState × Option WalkErr, r1 = (t1, err1) ∨
          r1 = walkEntries t1 path rest → WalkSim (t, some WalkErr.Canceled) r1 := by
        rintro r1 (rfl | rfl)
        · exact ⟨hpre, Or.inl rfl⟩
        · exact ⟨hpre.trans hrest, Or.inl rfl⟩
      cases e with
      | noStat name =>
        simp only [ne_eq, reduceCtorEq, not_false_eq_true, if_true]
        apply hfin
        rcases err1 with _ | e1
        · exact Or.inr rfl
        · simp only
          split_ifs <;> first | exact Or.inl rfl | exact Or.inr rfl
      | file name =>
        simp only [ne_eq, reduceCtorEq, not_false_eq_true, decide_True, Bool.or_true, if_true]
        apply hfin
        rcases err1 with _ | e1
        · exact Or.inr rfl
        · simp only
          split_ifs <;> first | exact Or.inl rfl | exact Or.inr rfl
      | dir name readErr entries =>
        simp only [ne_eq, reduceCtorEq, not_false_eq_true, decide_True, Bool.or_true, if_true]
        apply hfin
        rcases err1 with _ | e1
        · exact Or.inr rfl
        · simp only
          split_ifs <;> first | exact Or.inl rfl | exact Or.inr rfl
    · subst he
      rcases err with _ | e1
      · exact walkEntries_sim t t1 hq2 hb2 path rest
      · cases e with
        | noStat name =>
          simp only
          split_ifs
          · exact ⟨hpre, Or.inr ⟨rfl, hq2, hb2⟩⟩
          · exact walkEntries_sim t t1 hq2 hb2 path rest
        | file name =>
          simp only
          split_ifs
          · exact ⟨hpre, Or.inr ⟨rfl, hq2, hb2⟩⟩
          · exact walkEntries_sim t t1 hq2 hb2 path rest
        | dir name readErr entries =>
          simp only
          split_ifs
          · exact ⟨hpre, Or.inr ⟨rfl, hq2, hb2⟩⟩
          · exact walkEntries_sim t t1 hq2 hb2 path rest
end

/-- A walk that is cancelled earlier queues a prefix of what a walk that is cancelled later
queues. -/
theorem crawl_cancel_earlier (b b1 : Nat) (h : b ≤ b1) (root : FsNode) :
    crawl b root <+: crawl b1 root :=
  (walkNode_sim ⟨b, []⟩ ⟨b1, []⟩ rfl h [] root).1

theorem walkFn_budget (s : CrawlState) (path : List String) (info : Option FileInfo)
    (err : Bool) (h : 1 ≤ s.budget) :
    (walkFn s path info err).2 ≠ some WalkErr.Canceled ∧
      s.budget ≤ (walkFn s path info err).1.budget + 1 := by
  have h0 : s.budget ≠ 0 := by omega
  rcases info with _ | info
  · simp [walkFn, h0]; omega
  · cases err
    · cases hD : info.IsDir
      · cases hF : isDrawingFile info.Name <;> simp [walkFn, h0, hD, hF] <;> omega
      · cases hE : shouldExclude info.Name <;> simp [walkFn, h0, hD, hE] <;> omega
    · simp [walkFn, h0]; omega

mutual
/-- A walk whose budget covers the tree is not cancelled. -/
theorem walkNode_budget (s : CrawlState) (path : List String) :
    ∀ node : FsNode, node.size ≤ s.budget →
      (walkNode s path node).2 ≠ some WalkErr.Canceled ∧
        s.budget ≤ (walkNode s path node).1.budget + node.size
  | .noStat name => by
    intro h
    rw [walkNode]
    simp only [FsNode.size] at h ⊢
    exact walkFn_budget s _ _ _ h
  | .file name => by
    intro h
    rw [walkNode]
    simp only [FsNode.size] at h ⊢
    exact walkFn_budget s _ _ _ h
  | .dir name readErr entries => by
    intro h
    rw [walkNode]
    simp only [FsNode.size] at h ⊢
    have h1 := walkFn_budget s (path ++ [name]) (some { Name := name, IsDir := true }) readErr
      (by omega)
    rcases hw : walkFn s (path ++ [name]) (some { Name := name, IsDir := true }) readErr
      with ⟨t, err⟩
    rw [hw] at h1
    simp only at h1 ⊢
    split_ifs
    · exact ⟨h1.1, by simp only; omega⟩
    · have h2 := walkEntries_budget t (path ++ [name]) entries (by omega)
      exact ⟨h2.1, by omega⟩

/-- A walk over entries whose budget covers them is not cancelled. -/
theorem walkEntries_budget (s : CrawlState) (path : List String) :
    ∀ entries : List FsNode, FsNode.sizeList entries ≤ s.budget →
      (walkEntries s path entries).2 ≠ some WalkErr.Canceled ∧
        s.budget ≤ (walkEntries s path entries).1.budget + FsNode.sizeList entries
  | [] => by
    intro _
    rw [walkEntries]
    simp [FsNode.sizeList]
  | e :: rest => by
    intro h
    rw [walkEntries]
    simp only [FsNode.sizeList] at h ⊢
    have h1 := walkNode_budget s path e (by omega)
    rcases hw : walkNode s path e with ⟨t, err⟩
    rw [hw] at h1
    simp only at h1
    have h2 := walkEntries_budget t path rest (by omega)
    rcases err with _ | e1
    · exact ⟨h2.1, by simp only; omega⟩
    · cases e with
      | noStat name =>
        simp only
        split_ifs
        · exact ⟨h1.1, by simp only; omega⟩
        · exact ⟨h2.1, by omega⟩
      | file name =>
        simp only
        split_ifs
        · exact ⟨h1.1, by simp only; omega⟩
        · exact ⟨h2.1, by omega⟩
      | dir name readErr entries =>
        simp only
        split_ifs
        · exact ⟨h1.1, by simp only; omega⟩
        · exact ⟨h2.1, by omega⟩
end

/-- A budget that covers the tree is as good as any larger one: the walk is then not
cancelled, and `harvest` lists all it queues. -/
theorem crawl_enough (b : Nat) (root : FsNode) (h : root.size ≤ b) :
    crawl b root = crawl root.size root := by
  have hs := walkNode_sim ⟨root.size, []⟩ ⟨b, []⟩ rfl h [] root
  have hb := walkNode_budget ⟨root.size, []⟩ [] root (le_refl _)
  rcases hs.2 with hc | ⟨_, hq, _⟩
  · exact absurd hc hb.1
  · exact hq.symm

/-- An excluded directory is not entered: walking it leaves the queue as it is. -/
theorem walkNode_excluded (s : CrawlState) (path : List String) (name : String)
    (readErr : Bool) (entries : List FsNode) (h : shouldExclude name = true) :
    (walkNode s path (.dir name readErr entries)).1.queue = s.queue := by
  rw [walkNode]
  by_cases h0 : s.budget = 0
  · simp [walkFn, h0]
  · cases readErr <;> simp [walkFn, h0, h]

/-- C4. For every directory tree, and wherever the walk is cancelled, every path the crawl
phase puts on the queue is clean: no directory from the scan root (inclusive) down to the file
has an excluded name.  A directory with an excluded name is not entered: walking it queues
nothing, whatever it holds.  And in a scan of the tree every file that is in the sink, once
the scan has cleared it, belongs to a clean path of the walk. -/
theorem crawl_excludes (root : FsNode) :
    (∀ budget, ∀ q ∈ crawl budget root, ∀ n ∈ q.dropLast, shouldExclude n = false) ∧
    (∀ (s : CrawlState) (path : List String) (name : String) (readErr : Bool)
      (entries : List FsNode), shouldExclude name = true →
      (walkNode s path (.dir name readErr entries)).1.queue = s.queue) ∧
    (∀ (world : List String → OpenOutcome) (sched : List Label) (s0 s1 : Scanner),
      Scanner.Scan (harvest world root) sched s0 = some s1 →
      ∀ (trace : List Label) (s2 : Scanner), run trace s1 = some s2 →
        s2.collector ≠ .notStarted →
        ∀ f ∈ s2.files, ∃ q ∈ crawl root.size root, f.Path = Join q ∧
          ∀ n ∈ q.dropLast, shouldExclude n = false) :=
  ⟨fun budget q hq => walkNode_clean ⟨budget, []⟩ [] (by simp) (by simp) root q hq,
   fun s path name readErr entries h => walkNode_excluded s path name readErr entries h,
   fun world sched s0 s1 hs trace s2 hr hns =>
     sink_paths_clean world root sched s0 s1 hs trace s2 hr hns⟩

theorem crawl_excludes_witness :
    ["data", "sub", "b.dwg"] ∈ crawl 100 exTree ∧ shouldExclude "sub" = false :=
  ⟨by decide, (crawl_excludes exTree).1 100 ["data", "sub", "b.dwg"] (by decide) "sub"
    (by decide)⟩

/-! ### Tokens, result channels and the order in which the dispatcher handles them -/

/-- Counting the positions of a list that satisfy a test counts the elements that do. -/
theorem countP_eq_filter_range (P : Slot → Bool) (slots : List Slot) :
    slots.countP P
      = ((List.range slots.length).filter (fun i => (slots[i]?).any P)).length := by
  induction slots with
  | nil => simp
  | cons x xs ih =>
    rw [List.length_cons, List.range_succ_eq_map, List.filter_cons, List.filter_map,
      List.countP_cons, ih]
    have hf : ((fun i => ((x :: xs)[i]?).any P) ∘ Nat.succ) = (fun i => (xs[i]?).any P) := by
      funext i; simp
    rw [hf]
    cases hP : P x <;> simp [hP]

/-- Distinct indices that pass a test on the result channel they refer to are at most as many
as the result channels that pass it. -/
theorem filter_index_le_countP (P : Slot → Bool) (slots : List Slot) (l : List Nat)
    (hnd : l.Nodup) : (l.filter (fun i => (slots[i]?).any P)).length ≤ slots.countP P := by
  rw [countP_eq_filter_range]
  apply List.Subperm.length_le
  apply List.subperm_of_subset (hnd.filter _)
  intro i hi
  rw [List.mem_filter] at hi ⊢
  refine ⟨?_, hi.2⟩
  rw [List.mem_range]
  by_contra hge
  have hnone : slots[i]? = none := List.getElem?_eq_none (by omega)
  have h2 := hi.2
  rw [hnone] at h2
  simp at h2

/-- Only the step that takes a token makes a result channel: it starts the worker and leaves
`results` as it is. -/
theorem step_creates (l : Label) (s s1 : Scanner) (h : step l s = some s1)
    (hne : s1.slots.length ≠ s.slots.length) :
    l = .dispAcquire ∧ 0 < s.tokens ∧ s1.tokens + 1 = s.tokens ∧ s1.results = s.results ∧
      s1.slots.length = s.slots.length + 1 := by
  cases l with
  | start => obtain ⟨_, rfl⟩ := step_start h; exact absurd rfl hne
  | crawlNext =>
    rcases step_crawlNext h with ⟨_, rfl⟩ | ⟨_, _, _, _, rfl⟩ | ⟨_, _, _, _, rfl⟩ <;>
      exact absurd rfl hne
  | crawlSend => obtain ⟨_, _, _, _, rfl⟩ := step_crawlSend h; exact absurd rfl hne
  | dispRecv =>
    obtain ⟨_, ⟨_, _, _, rfl⟩ | ⟨_, _, rfl⟩⟩ := step_dispRecv h <;> exact absurd rfl hne
  | dispAcquire =>
    obtain ⟨p, _, hpos, rfl⟩ := step_dispAcquire h
    refine ⟨rfl, hpos, ?_, rfl, by simp⟩
    simp only
    omega
  | dispCancel => obtain ⟨_, _, _, rfl⟩ := step_dispCancel h; exact absurd rfl hne
  | dispDrain =>
    obtain ⟨_, ⟨_, _, _, rfl⟩ | ⟨_, _, rfl⟩⟩ := step_dispDrain h <;> exact absurd rfl hne
  | dispSend => obtain ⟨_, _, _, rfl⟩ := step_dispSend h; exact absurd rfl hne
  | workRead i =>
    obtain ⟨_, _, _, rfl⟩ := step_workRead h
    exact absurd (List.length_set _ _ _) hne
  | workRelease i =>
    obtain ⟨_, _, _, _, rfl⟩ := step_workRelease h
    exact absurd (List.length_set _ _ _) hne
  | workClose i =>
    obtain ⟨_, _, _, rfl⟩ := step_workClose h
    exact absurd (List.length_set _ _ _) hne
  | collRecv =>
    obtain ⟨_, ⟨_, _, _, rfl⟩ | ⟨_, _, rfl⟩⟩ := step_collRecv h <;> exact absurd rfl hne
  | collRead =>
    obtain ⟨_, _, _, _, ⟨_, _, rfl⟩ | ⟨_, _, rfl⟩⟩ := step_collRead h
    · exact absurd (List.length_set _ _ _) hne
    · exact absurd rfl hne
  | collTick => obtain ⟨_, rfl⟩ := step_collTick h; exact absurd rfl hne
  | cancelCtx => rw [step_cancelCtx h] at hne; exact absurd rfl hne

/-- Only the dispatcher's send puts a result channel on `results`, and it puts the one the
dispatcher made when it took the token. -/
theorem step_enqueues (l : Label) (s s1 : Scanner) (h : step l s = some s1)
    (hlt : s.results.length < s1.results.length) :
    l = .dispSend ∧ ∃ i, s.dispatcher = .sendingResult i ∧ s1.results = s.results ++ [i] := by
  cases l with
  | start => obtain ⟨_, rfl⟩ := step_start h; simp at hlt
  | crawlNext =>
    rcases step_crawlNext h with ⟨_, rfl⟩ | ⟨_, _, _, _, rfl⟩ | ⟨_, _, _, _, rfl⟩ <;>
      simp at hlt
  | crawlSend => obtain ⟨_, _, _, _, rfl⟩ := step_crawlSend h; simp at hlt
  | dispRecv =>
    obtain ⟨_, ⟨_, _, _, rfl⟩ | ⟨_, _, rfl⟩⟩ := step_dispRecv h <;> simp at hlt
  | dispAcquire => obtain ⟨_, _, _, rfl⟩ := step_dispAcquire h; simp at hlt
  | dispCancel => obtain ⟨_, _, _, rfl⟩ := step_dispCancel h; simp at hlt
  | dispDrain =>
    obtain ⟨_, ⟨_, _, _, rfl⟩ | ⟨_, _, rfl⟩⟩ := step_dispDrain h <;> simp at hlt
  | dispSend =>
    obtain ⟨i, hd, _, rfl⟩ := step_dispSend h
    exact ⟨rfl, i, hd, rfl⟩
  | workRead i => obtain ⟨_, _, _, rfl⟩ := step_workRead h; simp at hlt
  | workRelease i => obtain ⟨_, _, _, _, rfl⟩ := step_workRelease h; simp at hlt
  | workClose i => obtain ⟨_, _, _, rfl⟩ := step_workClose h; simp at hlt
  | collRecv =>
    obtain ⟨_, ⟨_, _, hr, rfl⟩ | ⟨hr, _, rfl⟩⟩ := step_collRecv h
    · rw [hr] at hlt; simp at hlt
    · simp at hlt
  | collRead =>
    obtain ⟨_, _, _, _, ⟨_, _, rfl⟩ | ⟨_, _, rfl⟩⟩ := step_collRead h <;> simp at hlt
  | collTick => obtain ⟨_, rfl⟩ := step_collTick h; simp at hlt
  | cancelCtx => rw [step_cancelCtx h] at hlt; simp at hlt

/-- A pending result channel that is unresolved belongs to a worker that still holds its
token, or to a worker whose classification failed and that has returned its token but not yet
closed the channel. -/
theorem unresolved_cases (sl : Slot) (hok : SlotOk sl) (hu : sl.unresolved = true) :
    sl.holdsToken = true ∨ (sl.pc = .released ∧ classify sl.path sl.file = none) := by
  simp only [Slot.unresolved, Bool.and_eq_true, Option.isNone_iff_eq_none,
    Bool.not_eq_true', ] at hu
  obtain ⟨hb, hcl⟩ := hu
  cases hpc : sl.pc with
  | reading => left; simp [Slot.holdsToken, hpc]
  | sent => left; simp [Slot.holdsToken, hpc]
  | released =>
    right
    refine ⟨rfl, ?_⟩
    rw [← hok.2.1 (by rw [hpc]; simp), hb]
  | exited =>
    have := hok.2.2.mpr hpc
    rw [hcl] at this
    cases this

theorem results_sublist_pending (s : Scanner) : s.results.Sublist (pendingSlots s) := by
  unfold pendingSlots
  exact (List.sublist_append_right _ _).trans (List.sublist_append_left _ _)

/-- C11, as stated, fails.  With one worker, after the history `exActsPermit` the dispatcher
has taken the third path from `queue` and waits for a token; no result channel for that path
has been made or put on `results` (the two channels there belong to the first two paths), and
neither the making nor the send is enabled. -/
theorem dispatcher_takes_permit_first :
    execAll exActsPermit (NewScanner [] 1) = some exWaitingPermit ∧
    exWaitingPermit.dispatcher = .selecting exC ∧ exWaitingPermit.tokens = 0 ∧
    exWaitingPermit.slots.map (fun sl => sl.path) = ["C:\\b.dwg", "C:\\a.dwg"] ∧
    exWaitingPermit.results = [0, 1] ∧
    step .dispAcquire exWaitingPermit = none ∧ step .dispSend exWaitingPermit = none := by
  decide

/-- C11, amended.  In every state the scanner can reach: a result channel is made only by the
step in which the dispatcher takes a token, which also starts the worker and does not touch
`results`; a channel is put on `results` only by the dispatcher's later send, and it exists
by then; while the dispatcher waits for a token with a path in hand, no step makes or
enqueues a channel; so the channels in `results` whose worker holds a token are at most as
many as the workers, and an unresolved channel in `results` belongs to a worker that holds a
token or to one whose classification failed and that has returned its token before its
deferred close.  Through such workers the unresolved channels in `results` can exceed the
worker count while the dispatcher waits for a token. -/
theorem permit_before_slot :
    (∀ (files : List File) (k : Nat) (acts : List Action) (s : Scanner),
      execAll acts (NewScanner files k) = some s →
      (∀ l s1, step l s = some s1 → s1.slots.length ≠ s.slots.length →
        l = .dispAcquire ∧ 0 < s.tokens ∧ s1.tokens + 1 = s.tokens ∧
          s1.results = s.results) ∧
      (∀ l s1, step l s = some s1 → s.results.length < s1.results.length →
        l = .dispSend ∧ ∃ i sl, s.dispatcher = .sendingResult i ∧ s.slots[i]? = some sl ∧
          s1.results = s.results ++ [i]) ∧
      (∀ p, s.dispatcher = .selecting p → s.tokens = 0 →
        ∀ l s1, step l s = some s1 →
          s1.slots.length = s.slots.length ∧ s1.results.length ≤ s.results.length) ∧
      enqueuedHolding s ≤ k ∧
      (∀ i ∈ s.results, ∀ sl, s.slots[i]? = some sl → sl.unresolved = true →
        sl.holdsToken = true ∨ (sl.pc = .released ∧ classify sl.path sl.file = none))) ∧
    (∃ acts s p, execAll acts (NewScanner [] 1) = some s ∧ s.dispatcher = .selecting p ∧
      s.tokens = 0 ∧ 1 < enqueuedUnresolved s) := by
  constructor
  · intro files k acts s h
    have hL := execAll_LiveInv acts _ s h (NewScanner_LiveInv files k)
    have hw : s.workers = k := (execAll_TokInv acts _ s h (NewScanner_LiveInv files k).1).2
    obtain ⟨hT, _, hP⟩ := hL
    refine ⟨?_, ?_, ?_, ?_, ?_⟩
    · intro l s1 hs hne
      obtain ⟨h1, h2, h3, h4, _⟩ := step_creates l s s1 hs hne
      exact ⟨h1, h2, h3, h4⟩
    · intro l s1 hs hlt
      obtain ⟨h1, i, hd, hr⟩ := step_enqueues l s s1 hs hlt
      obtain ⟨sl, hsl, _⟩ := hP.2 i (by simp [pendingSlots, hd])
      exact ⟨h1, i, sl, hd, hsl, hr⟩
    · intro p hd htok l s1 hs
      constructor
      · by_contra hne
        have := (step_creates l s s1 hs hne).2.1
        omega
      · by_contra hlt
        obtain ⟨_, i, hd2, _⟩ := step_enqueues l s s1 hs (by omega)
        rw [hd] at hd2
        cases hd2
    · have hnd : s.results.Nodup := hP.1.sublist (results_sublist_pending s)
      have h1 := filter_index_le_countP Slot.holdsToken s.slots s.results hnd
      unfold TokInv holders at hT
      unfold enqueuedHolding
      omega
    · intro i hi sl hsl hu
      obtain ⟨sl0, hsl0, hok⟩ := hP.2 i ((results_sublist_pending s).subset hi)
      rw [hsl] at hsl0
      cases hsl0
      exact unresolved_cases sl hok hu
  · exact ⟨exActsPermit, exWaitingPermit, exC, by decide, by decide, by decide, by decide⟩

theorem permit_before_slot_witness :
    enqueuedHolding exWaitingPermit ≤ 1 ∧ enqueuedUnresolved exWaitingPermit = 2 :=
  ⟨(permit_before_slot.1 [] 1 exActsPermit exWaitingPermit (by decide)).2.2.2.1, by decide⟩

end Cadscan
